import Mathlib

/- Formal model of the rei-sort library (reicore/rei_sort.hpp): an adaptive
   hybrid sorting engine made of a single-pass monotonicity scanner, a
   binary-search insertion sort, an iterative introsort with three-way
   partitioning and median-of-three pivoting, a heapsort fallback, and a
   key-projected decorate/sort/undecorate entry point.  Ranges are modelled
   as `List α`, iterator positions as `Nat` indices, the C++ `int` recursion
   budget as `Int`, and comparators as boolean predicates. -/

namespace ReiSort

/-- Strict weak order assumptions the engine places on a comparator:
irreflexivity, transitivity, and transitivity of incomparability. -/
structure IsSWO {α : Type} (less : α → α → Bool) : Prop where
  irrefl : ∀ a, less a a = false
  trans : ∀ a b c, less a b = true → less b c = true → less a c = true
  incomp_trans : ∀ a b c, less a b = false → less b a = false →
    less b c = false → less c b = false → less a c = false ∧ less c a = false

/-- In a strict weak order, `less` is asymmetric. -/
theorem IsSWO.asymm {α : Type} {less : α → α → Bool} (h : IsSWO less)
    {a b : α} (hab : less a b = true) : less b a = false := by
  by_contra hba
  have hba' : less b a = true := by
    cases hb : less b a with
    | false => exact absurd hb hba
    | true => rfl
  have := h.trans a b a hab hba'
  rw [h.irrefl a] at this
  exact Bool.false_ne_true this

/-- In a strict weak order, `a < c` forces `a < b` or `b < c` for any `b`. -/
theorem IsSWO.less_split {α : Type} {less : α → α → Bool} (h : IsSWO less)
    {a c : α} (b : α) (hac : less a c = true) :
    less a b = true ∨ less b c = true := by
  by_contra hcon
  push_neg at hcon
  obtain ⟨hab, hbc⟩ := hcon
  have hab' : less a b = false := Bool.eq_false_iff.mpr hab
  have hbc' : less b c = false := Bool.eq_false_iff.mpr hbc
  cases hba : less b a with
  | true =>
      have := h.trans b a c hba hac
      exact hbc (by rw [this])
  | false =>
      cases hcb : less c b with
      | true =>
          have := h.trans a c b hac hcb
          exact hab (by rw [this])
      | false =>
          have := (h.incomp_trans a b c hab' hba hbc' hcb).1
          rw [this] at hac
          exact Bool.false_ne_true hac

/-- The non-strict companion `¬ less b a` of a strict weak order is
transitive. -/
theorem IsSWO.le_trans {α : Type} {less : α → α → Bool} (h : IsSWO less)
    {a b c : α} (hab : less b a = false) (hbc : less c b = false) :
    less c a = false := by
  cases hca : less c a with
  | false => rfl
  | true =>
      rcases h.less_split b hca with h1 | h1
      · rw [h1] at hbc; simp at hbc
      · rw [h1] at hab; simp at hab

/-- A strict comparison followed by a non-strict one stays strict. -/
theorem IsSWO.lt_of_lt_of_le {α : Type} {less : α → α → Bool} (h : IsSWO less)
    {a b c : α} (hab : less a b = true) (hbc : less c b = false) :
    less a c = true := by
  rcases h.less_split c hab with h1 | h1
  · exact h1
  · rw [h1] at hbc; simp at hbc

/-- A non-strict comparison followed by a strict one stays strict. -/
theorem IsSWO.lt_of_le_of_lt {α : Type} {less : α → α → Bool} (h : IsSWO less)
    {a b c : α} (hab : less b a = false) (hbc : less b c = true) :
    less a c = true := by
  rcases h.less_split a hbc with h1 | h1
  · rw [h1] at hab; simp at hab
  · exact h1

section ListKit

variable {α : Type} [Inhabited α]

/-- Element at index `i`, with the `Inhabited` default out of bounds;
models dereferencing `first + i`. -/
def nth (a : List α) (i : Nat) : α :=
  a.getD i default

/-- Swap of the elements at two indices, modelling `std::iter_swap`. -/
def swapL (a : List α) (i j : Nat) : List α :=
  (a.set i (nth a j)).set j (nth a i)

theorem nth_eq_getElem {a : List α} {i : Nat} (h : i < a.length) :
    nth a i = a[i] :=
  List.getD_eq_getElem a default h

theorem nth_set_self {a : List α} {i : Nat} (v : α) (h : i < a.length) :
    nth (a.set i v) i = v := by
  rw [nth, List.getD_eq_getElem _ _ (by simpa using h)]
  simp [List.getElem_set_self]

theorem nth_set_ne {a : List α} {i j : Nat} (v : α) (hne : i ≠ j) :
    nth (a.set i v) j = nth a j := by
  unfold nth
  rw [List.getD_eq_getElem?_getD, List.getD_eq_getElem?_getD,
    List.getElem?_set_ne hne]

@[simp]
theorem length_swapL (a : List α) (i j : Nat) :
    (swapL a i j).length = a.length := by
  simp [swapL]

theorem swapL_perm (a : List α) {i j : Nat} (hi : i < a.length)
    (hj : j < a.length) : (swapL a i j).Perm a := by
  classical
  rw [List.perm_iff_count]
  intro x
  have hcnt : a[i] = x → 1 ≤ List.count x a := fun hx =>
    List.count_pos_iff.mpr (hx ▸ List.getElem_mem hi)
  unfold swapL
  rw [List.count_set _ _ _ _ (by simpa using hj), List.count_set _ _ _ _ hi]
  rw [nth_eq_getElem hi, nth_eq_getElem hj]
  rcases eq_or_ne i j with rfl | hne
  · simp only [List.getElem_set_self, beq_iff_eq]
    by_cases hx : a[i] = x <;> simp only [hx, if_true, if_false] <;>
      [skip; omega]
    have := hcnt hx
    omega
  · rw [List.getElem_set_ne hne (by simpa using hj)]
    simp only [beq_iff_eq]
    by_cases hx1 : a[i] = x <;> by_cases hx2 : a[j] = x <;>
      simp only [hx1, hx2, if_true, if_false] <;> first
        | (have hq := hcnt hx1; omega)
        | omega

theorem nth_swapL_left {a : List α} {i j : Nat} (hi : i < a.length)
    (hj : j < a.length) : nth (swapL a i j) i = nth a j := by
  unfold swapL
  rcases eq_or_ne j i with rfl | hne
  · rw [nth_set_self _ (by simpa using hj)]
  · rw [nth_set_ne _ hne, nth_set_self _ hi]

theorem nth_swapL_right {a : List α} {i j : Nat} (hi : i < a.length)
    (hj : j < a.length) : nth (swapL a i j) j = nth a i := by
  unfold swapL
  rw [nth_set_self _ (by simpa using hj)]

theorem nth_swapL_other {a : List α} {i j k : Nat} (hik : k ≠ i) (hjk : k ≠ j) :
    nth (swapL a i j) k = nth a k := by
  unfold swapL
  rw [nth_set_ne _ (fun h => hjk h.symm), nth_set_ne _ (fun h => hik h.symm)]

end ListKit

section Segments

variable {α : Type} [Inhabited α]

/-- Contents of the sub-range `[lo, hi)` of a range. -/
def seg (a : List α) (lo hi : Nat) : List α :=
  (a.drop lo).take (hi - lo)

/-- Replace the sub-range `[lo, hi)` of a range by `b`; models running an
in-place algorithm on the iterator pair `(first + lo, first + hi)`. -/
def applySeg (a : List α) (lo hi : Nat) (b : List α) : List α :=
  a.take lo ++ b ++ a.drop hi

theorem length_seg {a : List α} {lo hi : Nat} (hlo : lo ≤ hi)
    (hhi : hi ≤ a.length) : (seg a lo hi).length = hi - lo := by
  simp [seg]
  omega

theorem length_applySeg {a b : List α} {lo hi : Nat} (hlo : lo ≤ hi)
    (hhi : hi ≤ a.length) (hb : b.length = hi - lo) :
    (applySeg a lo hi b).length = a.length := by
  simp [applySeg, hb]
  omega

theorem nth_applySeg_left {a b : List α} {lo hi k : Nat} (hk : k < lo)
    (hlo : lo ≤ a.length) :
    nth (applySeg a lo hi b) k = nth a k := by
  unfold applySeg nth
  rw [List.getD_eq_getElem?_getD, List.getD_eq_getElem?_getD]
  rw [List.getElem?_append_left (by simp [Nat.min_eq_left hlo]; omega)]
  rw [List.getElem?_append_left (by simp [Nat.min_eq_left hlo]; omega)]
  rw [List.getElem?_take, if_pos hk]

theorem nth_applySeg_right {a b : List α} {lo hi k : Nat} (hk : hi ≤ k)
    (hlo : lo ≤ hi) (hhi : hi ≤ a.length) (hb : b.length = hi - lo) :
    nth (applySeg a lo hi b) k = nth a k := by
  unfold applySeg nth
  rw [List.getD_eq_getElem?_getD, List.getD_eq_getElem?_getD]
  have hlen : (a.take lo ++ b).length = hi := by
    simp [hb, Nat.min_eq_left (Nat.le_trans hlo hhi)]
    omega
  rw [List.getElem?_append_right (by rw [hlen]; exact hk), hlen,
    List.getElem?_drop]
  have hco : hi + (k - hi) = k := by omega
  rw [hco]

theorem nth_applySeg_mid {a b : List α} {lo hi k : Nat} (hk1 : lo ≤ k)
    (hk2 : k < hi) (hhi : hi ≤ a.length) (hb : b.length = hi - lo) :
    nth (applySeg a lo hi b) k = nth b (k - lo) := by
  unfold applySeg nth
  rw [List.getD_eq_getElem?_getD, List.getD_eq_getElem?_getD]
  have htl : (a.take lo).length = lo :=
    List.length_take_of_le
      (Nat.le_trans (Nat.le_trans hk1 (Nat.le_of_lt hk2)) hhi)
  rw [List.getElem?_append_left (by simp [htl, hb]; omega)]
  rw [List.getElem?_append_right (by rw [htl]; exact hk1), htl]

theorem nth_seg {a : List α} {lo hi k : Nat} (hk : k < hi - lo)
    (hhi : hi ≤ a.length) : nth (seg a lo hi) k = nth a (lo + k) := by
  unfold seg nth
  rw [List.getD_eq_getElem?_getD, List.getD_eq_getElem?_getD]
  rw [List.getElem?_take, if_pos hk, List.getElem?_drop]

theorem seg_applySeg {a b : List α} {lo hi : Nat} (hlo : lo ≤ hi)
    (hhi : hi ≤ a.length) (hb : b.length = hi - lo) :
    seg (applySeg a lo hi b) lo hi = b := by
  unfold seg applySeg
  have htl : (a.take lo).length = lo :=
    List.length_take_of_le (Nat.le_trans hlo hhi)
  have hlen : (a.take lo ++ b).length = hi := by
    rw [List.length_append, htl, hb]; omega
  have hz : lo - hi = 0 := by omega
  rw [List.drop_append_eq_append_drop, List.drop_append_eq_append_drop,
    List.drop_eq_nil_of_le (Nat.le_of_eq htl), htl, Nat.sub_self,
    List.drop_zero, List.nil_append, hlen, hz, List.drop_zero]
  rw [List.take_append_eq_append_take, ← hb, Nat.sub_self, List.take_zero,
    List.append_nil, List.take_length]

theorem applySeg_perm {a b : List α} {lo hi : Nat} (hlo : lo ≤ hi)
    (hhi : hi ≤ a.length) (hb : b.Perm (seg a lo hi)) :
    (applySeg a lo hi b).Perm a := by
  have ha : a = a.take lo ++ seg a lo hi ++ a.drop hi := by
    unfold seg
    have h1 : a.drop lo = (a.drop lo).take (hi - lo) ++ a.drop hi := by
      conv_lhs => rw [← List.take_append_drop (hi - lo) (a.drop lo)]
      congr 1
      rw [List.drop_drop]
      have hco : lo + (hi - lo) = hi := by omega
      rw [hco]
    rw [List.append_assoc, ← h1, List.take_append_drop]
  rw [applySeg]
  conv_rhs => rw [ha]
  exact ((List.Perm.refl _).append hb).append (List.Perm.refl _)

theorem mem_seg_iff {a : List α} {lo hi : Nat} {x : α} (hlo : lo ≤ hi)
    (hhi : hi ≤ a.length) :
    x ∈ seg a lo hi ↔ ∃ k, lo ≤ k ∧ k < hi ∧ nth a k = x := by
  rw [List.mem_iff_getElem]
  constructor
  · rintro ⟨i, hilt, hget⟩
    have hlen : (seg a lo hi).length = hi - lo := length_seg hlo hhi
    refine ⟨lo + i, by omega, by omega, ?_⟩
    rw [← nth_seg (by omega) hhi, nth_eq_getElem (by omega)]
    exact hget
  · rintro ⟨k, hk1, hk2, hget⟩
    have hlen : (seg a lo hi).length = hi - lo := length_seg hlo hhi
    refine ⟨k - lo, by omega, ?_⟩
    rw [← nth_eq_getElem (by omega), nth_seg (by omega) hhi]
    rw [Nat.add_sub_cancel' hk1]
    exact hget

end Segments

section Scanner

variable {α : Type} [Inhabited α]

/-- Loop of `scan_sorted_and_reverse`: walks adjacent pairs clearing the two
flags, with the early exit once both are cleared; the range is threaded
through untouched since the loop only reads it. -/
def scanLoop (comp : α → α → Bool) (a : List α) (it : Nat) (s r : Bool) :
    Bool × Bool × List α :=
  if _h : it + 1 < a.length then
    let s' := if comp (nth a (it + 1)) (nth a it) then false else s
    let r' := if comp (nth a it) (nth a (it + 1)) then false else r
    if !s' && !r' then (s', r', a) else scanLoop comp a (it + 1) s' r'
  else (s, r, a)
termination_by a.length - it

/-- Model of `rei::scan_sorted_and_reverse`: single pass detection of sorted
and reverse-sorted ranges, returning the two flags and the range after the
call. -/
def scan_sorted_and_reverse (a : List α) (comp : α → α → Bool) :
    Bool × Bool × List α :=
  if a.length ≤ 1 then (true, true, a) else scanLoop comp a 0 true true

theorem scanLoop_range (comp : α → α → Bool) (a : List α) :
    ∀ (n it : Nat) (s r : Bool), a.length - it ≤ n →
      (scanLoop comp a it s r).2.2 = a := by
  intro n
  induction n with
  | zero =>
      intro it s r hle
      rw [scanLoop, dif_neg (by omega)]
  | succ n ih =>
      intro it s r hle
      by_cases h : it + 1 < a.length
      · rw [scanLoop, dif_pos h]
        cases hb1 : comp (nth a (it + 1)) (nth a it) <;>
          cases hb2 : comp (nth a it) (nth a (it + 1)) <;>
            cases s <;> cases r <;>
              simp only [hb1, hb2] <;> simp <;>
                exact ih (it + 1) _ _ (by omega)
      · rw [scanLoop, dif_neg h]

theorem scanLoop_sorted (comp : α → α → Bool) (a : List α) :
    ∀ (n it : Nat) (s r : Bool), a.length - it ≤ n →
      ((scanLoop comp a it s r).1 = true ↔
        (s = true ∧ ∀ j, it ≤ j → j + 1 < a.length →
          comp (nth a (j + 1)) (nth a j) = false)) := by
  intro n
  induction n with
  | zero =>
      intro it s r hle
      rw [scanLoop, dif_neg (by omega)]
      constructor
      · intro hs
        exact ⟨hs, fun j hj hjlt => by omega⟩
      · rintro ⟨hs, _⟩
        exact hs
  | succ n ih =>
      intro it s r hle
      by_cases h : it + 1 < a.length
      · rw [scanLoop, dif_pos h]
        have hstep : (∀ j, it ≤ j → j + 1 < a.length →
              comp (nth a (j + 1)) (nth a j) = false) ↔
            (comp (nth a (it + 1)) (nth a it) = false ∧
              ∀ j, it + 1 ≤ j → j + 1 < a.length →
                comp (nth a (j + 1)) (nth a j) = false) := by
          constructor
          · intro hall
            exact ⟨hall it (Nat.le_refl it) h,
              fun j hj hjlt => hall j (by omega) hjlt⟩
          · rintro ⟨h1, h2⟩ j hj hjlt
            rcases Nat.eq_or_lt_of_le hj with rfl | hj'
            · exact h1
            · exact h2 j hj' hjlt
        rw [hstep]
        cases hb1 : comp (nth a (it + 1)) (nth a it) <;>
          cases hb2 : comp (nth a it) (nth a (it + 1)) <;>
            cases s <;> cases r <;>
              simp only [hb1, hb2] <;>
                (try simp [hb1, hb2]) <;>
                  (first
                    | rfl
                    | (rw [ih (it + 1) _ _ (by omega)]; simp [hb1, hb2])
                    | (rw [Bool.eq_false_iff]
                       intro hcon
                       rw [ih (it + 1) _ _ (by omega)] at hcon
                       simp at hcon))
      · rw [scanLoop, dif_neg h]
        constructor
        · intro hs
          exact ⟨hs, fun j hj hjlt => by omega⟩
        · rintro ⟨hs, _⟩
          exact hs

theorem scanLoop_rev (comp : α → α → Bool) (a : List α) :
    ∀ (n it : Nat) (s r : Bool), a.length - it ≤ n →
      ((scanLoop comp a it s r).2.1 = true ↔
        (r = true ∧ ∀ j, it ≤ j → j + 1 < a.length →
          comp (nth a j) (nth a (j + 1)) = false)) := by
  intro n
  induction n with
  | zero =>
      intro it s r hle
      rw [scanLoop, dif_neg (by omega)]
      constructor
      · intro hr
        exact ⟨hr, fun j hj hjlt => by omega⟩
      · rintro ⟨hr, _⟩
        exact hr
  | succ n ih =>
      intro it s r hle
      by_cases h : it + 1 < a.length
      · rw [scanLoop, dif_pos h]
        have hstep : (∀ j, it ≤ j → j + 1 < a.length →
              comp (nth a j) (nth a (j + 1)) = false) ↔
            (comp (nth a it) (nth a (it + 1)) = false ∧
              ∀ j, it + 1 ≤ j → j + 1 < a.length →
                comp (nth a j) (nth a (j + 1)) = false) := by
          constructor
          · intro hall
            exact ⟨hall it (Nat.le_refl it) h,
              fun j hj hjlt => hall j (by omega) hjlt⟩
          · rintro ⟨h1, h2⟩ j hj hjlt
            rcases Nat.eq_or_lt_of_le hj with rfl | hj'
            · exact h1
            · exact h2 j hj' hjlt
        rw [hstep]
        cases hb1 : comp (nth a (it + 1)) (nth a it) <;>
          cases hb2 : comp (nth a it) (nth a (it + 1)) <;>
            cases s <;> cases r <;>
              simp only [hb1, hb2] <;>
                (try simp [hb1, hb2]) <;>
                  (first
                    | rfl
                    | (rw [ih (it + 1) _ _ (by omega)]; simp [hb1, hb2])
                    | (rw [Bool.eq_false_iff]
                       intro hcon
                       rw [ih (it + 1) _ _ (by omega)] at hcon
                       simp at hcon))
      · rw [scanLoop, dif_neg h]
        constructor
        · intro hr
          exact ⟨hr, fun j hj hjlt => by omega⟩
        · rintro ⟨hr, _⟩
          exact hr

/-- Full characterisation of the scanner's sorted flag. -/
theorem scan_sorted_iff (a : List α) (comp : α → α → Bool) :
    (scan_sorted_and_reverse a comp).1 = true ↔
      ∀ j, j + 1 < a.length → comp (nth a (j + 1)) (nth a j) = false := by
  unfold scan_sorted_and_reverse
  split
  · rename_i h
    simp only [true_iff]
    intro j hj
    omega
  · rw [scanLoop_sorted comp a (a.length) 0 true true (by omega)]
    simp only [true_and]
    constructor
    · intro hall j hj; exact hall j (Nat.zero_le j) hj
    · intro hall j _ hj; exact hall j hj

/-- Full characterisation of the scanner's reverse flag. -/
theorem scan_reverse_iff (a : List α) (comp : α → α → Bool) :
    (scan_sorted_and_reverse a comp).2.1 = true ↔
      ∀ j, j + 1 < a.length → comp (nth a j) (nth a (j + 1)) = false := by
  unfold scan_sorted_and_reverse
  split
  · rename_i h
    simp only [true_iff]
    intro j hj
    omega
  · rw [scanLoop_rev comp a (a.length) 0 true true (by omega)]
    simp only [true_and]
    constructor
    · intro hall j hj; exact hall j (Nat.zero_le j) hj
    · intro hall j _ hj; exact hall j hj

/-- The scanner never writes: the range after the call is the input. -/
theorem scan_range_eq (a : List α) (comp : α → α → Bool) :
    (scan_sorted_and_reverse a comp).2.2 = a := by
  unfold scan_sorted_and_reverse
  split
  · rfl
  · exact scanLoop_range comp a a.length 0 true true (by omega)

end Scanner

section InsertionSort

variable {α : Type} [Inhabited α]

/-- Adjacent-pairs sortedness of a range under `comp`
(`¬ comp (a[j+1], a[j])` for all adjacent pairs). -/
def SortedL (comp : α → α → Bool) (l : List α) : Prop :=
  List.Chain' (fun x y => comp y x = false) l

/-- Full pairwise sortedness: `¬ comp (a[k], a[j])` for all `j < k`. -/
def PairwiseLe (comp : α → α → Bool) (l : List α) : Prop :=
  List.Pairwise (fun x y => comp y x = false) l

theorem sortedL_iff_nth {comp : α → α → Bool} {l : List α} :
    SortedL comp l ↔
      ∀ j, j + 1 < l.length → comp (nth l (j + 1)) (nth l j) = false := by
  rw [SortedL, List.chain'_iff_get]
  constructor
  · intro hc j hj
    rw [nth_eq_getElem (by omega), nth_eq_getElem (by omega)]
    exact hc j (by omega)
  · intro hc i hi
    have := hc i (by omega)
    rw [nth_eq_getElem (by omega), nth_eq_getElem (by omega)] at this
    simpa [List.get_eq_getElem] using this

theorem sortedL_pairwise {comp : α → α → Bool} (hswo : IsSWO comp)
    {l : List α} (hs : SortedL comp l) : PairwiseLe comp l := by
  haveI : IsTrans α (fun x y => comp y x = false) :=
    ⟨fun a b c hab hbc => hswo.le_trans hab hbc⟩
  exact List.chain'_iff_pairwise.mp hs

theorem pairwiseLe_nth {comp : α → α → Bool} {l : List α}
    (hp : PairwiseLe comp l) {j k : Nat} (hjk : j < k) (hk : k < l.length) :
    comp (nth l k) (nth l j) = false := by
  rw [nth_eq_getElem hk, nth_eq_getElem (by omega)]
  have := List.pairwise_iff_get.mp hp ⟨j, by omega⟩ ⟨k, hk⟩ hjk
  simpa [List.get_eq_getElem] using this

/-- Binary search loop of `std::upper_bound(first, first + count, value,
comp)` over indices of the working range, as used by `insertion_sort`. -/
def upperBoundLoop (comp : α → α → Bool) (value : α) (a : List α)
    (first count : Nat) : Nat :=
  if h : count = 0 then first
  else if comp value (nth a (first + count / 2)) then
    upperBoundLoop comp value a first (count / 2)
  else
    upperBoundLoop comp value a (first + count / 2 + 1) (count - count / 2 - 1)
termination_by count
decreasing_by
  · omega
  · omega

theorem upperBoundLoop_bounds (comp : α → α → Bool) (value : α) (a : List α) :
    ∀ count first, first ≤ upperBoundLoop comp value a first count ∧
      upperBoundLoop comp value a first count ≤ first + count := by
  intro count
  induction count using Nat.strong_induction_on with
  | _ count ih =>
      intro first
      rw [upperBoundLoop]
      by_cases h : count = 0
      · simp [h]
      · rw [dif_neg h]
        by_cases hmid : comp value (nth a (first + count / 2)) = true
        · rw [if_pos hmid]
          have := ih (count / 2) (by omega) first
          omega
        · rw [if_neg hmid]
          have := ih (count - count / 2 - 1) (by omega) (first + count / 2 + 1)
          omega

/-- Specification of the binary search: on a monotone predicate it returns
the partition point. -/
theorem upperBoundLoop_spec (comp : α → α → Bool) (value : α) (a : List α) :
    ∀ count first,
      (∀ j k, first ≤ j → j ≤ k → k < first + count →
        comp value (nth a j) = true → comp value (nth a k) = true) →
      ((∀ j, first ≤ j → j < upperBoundLoop comp value a first count →
          comp value (nth a j) = false) ∧
        (∀ j, upperBoundLoop comp value a first count ≤ j →
          j < first + count → comp value (nth a j) = true)) := by
  intro count
  induction count using Nat.strong_induction_on with
  | _ count ih =>
      intro first hmono
      rw [upperBoundLoop]
      by_cases h : count = 0
      · rw [dif_pos h]
        exact ⟨fun j h1 h2 => by omega, fun j h1 h2 => by omega⟩
      · rw [dif_neg h]
        by_cases hmid : comp value (nth a (first + count / 2)) = true
        · rw [if_pos hmid]
          have hb := upperBoundLoop_bounds comp value a (count / 2) first
          have hrec := ih (count / 2) (by omega) first
            (fun j k h1 h2 h3 => hmono j k h1 h2 (by omega))
          refine ⟨hrec.1, fun j h1 h2 => ?_⟩
          by_cases hj : j < first + count / 2
          · exact hrec.2 j h1 hj
          · exact hmono (first + count / 2) j (by omega) (by omega) h2 hmid
        · rw [if_neg hmid]
          have hmid' : comp value (nth a (first + count / 2)) = false :=
            Bool.eq_false_iff.mpr hmid
          have hb := upperBoundLoop_bounds comp value a (count - count / 2 - 1)
            (first + count / 2 + 1)
          have hrec := ih (count - count / 2 - 1) (by omega)
            (first + count / 2 + 1)
            (fun j k h1 h2 h3 => hmono j k (by omega) h2 (by omega))
          constructor
          · intro j h1 h2
            by_cases hj : first + count / 2 + 1 ≤ j
            · exact hrec.1 j hj h2
            · cases hc : comp value (nth a j) with
              | false => rfl
              | true =>
                  have := hmono j (first + count / 2) h1 (by omega) (by omega) hc
                  rw [this] at hmid'
                  exact absurd hmid' (by simp)
          · intro j h1 h2
            exact hrec.2 j h1 (by omega)

/-- Body of the insertion loop of `insertion_sort`: move `a[i]` out, find
its insertion point in the sorted prefix `[0, i)` by binary search, shift
`[pos, i)` one slot to the right and drop the value in at `pos`. -/
def insertStep (comp : α → α → Bool) (a : List α) (i : Nat) : List α :=
  let value := nth a i
  let pos := upperBoundLoop comp value a 0 i
  a.take pos ++ value :: ((a.drop pos).take (i - pos)) ++ a.drop (i + 1)

theorem insertStep_length {comp : α → α → Bool} {a : List α} {i : Nat}
    (h : i < a.length) : (insertStep comp a i).length = a.length := by
  have hb := upperBoundLoop_bounds comp (nth a i) a i 0
  unfold insertStep
  simp only [List.length_append, List.length_cons, List.length_take,
    List.length_drop]
  omega

/-- Loop of `insertion_sort`: insert elements `i, i+1, …` one at a time. -/
def insertionLoop (comp : α → α → Bool) (a : List α) (i : Nat) : List α :=
  if h : i < a.length then insertionLoop comp (insertStep comp a i) (i + 1)
  else a
termination_by a.length - i
decreasing_by
  rw [insertStep_length h]
  omega

/-- Model of `rei::insertion_sort`: binary-search insertion sort over the
whole working range. -/
def insertion_sort (comp : α → α → Bool) (a : List α) : List α :=
  if a.length = 0 then a else insertionLoop comp a 1

theorem nth_take {a : List α} {i j : Nat} (h : j < i) :
    nth (a.take i) j = nth a j := by
  unfold nth
  rw [List.getD_eq_getElem?_getD, List.getD_eq_getElem?_getD,
    List.getElem?_take_of_lt h]

theorem list_decomp {a : List α} {p i : Nat} (hpi : p ≤ i)
    (hi : i < a.length) :
    a = a.take p ++ ((a.drop p).take (i - p) ++ nth a i :: a.drop (i + 1)) := by
  conv_lhs => rw [← List.take_append_drop p a]
  congr 1
  conv_lhs => rw [← List.take_append_drop (i - p) (a.drop p)]
  congr 1
  rw [List.drop_drop]
  have hco : p + (i - p) = i := by omega
  rw [hco, List.drop_eq_getElem_cons hi, nth_eq_getElem hi]

theorem insertStep_perm (comp : α → α → Bool) {a : List α} {i : Nat}
    (h : i < a.length) : (insertStep comp a i).Perm a := by
  have hb := upperBoundLoop_bounds comp (nth a i) a i 0
  unfold insertStep
  rw [List.append_assoc, List.cons_append]
  conv_rhs =>
    rw [list_decomp (p := upperBoundLoop comp (nth a i) a 0 i) (by omega) h]
  exact List.Perm.append_left _ (List.perm_middle.symm)

/-- The monotone-predicate hypothesis binary search needs, derived from the
sorted prefix and the strict-weak-order axioms. -/
theorem insert_mono {comp : α → α → Bool} (hswo : IsSWO comp) {a : List α}
    {i : Nat} (hi : i ≤ a.length) (hsorted : SortedL comp (a.take i))
    (value : α) :
    ∀ j k, 0 ≤ j → j ≤ k → k < 0 + i → comp value (nth a j) = true →
      comp value (nth a k) = true := by
  intro j k _ hjk hk hc
  rcases Nat.eq_or_lt_of_le hjk with rfl | hjk'
  · exact hc
  · have hp := sortedL_pairwise hswo hsorted
    have hle := pairwiseLe_nth hp (j := j) (k := k) hjk'
      (by rw [List.length_take]; omega)
    rw [nth_take (by omega), nth_take (by omega)] at hle
    exact hswo.lt_of_lt_of_le hc hle

theorem insertStep_sorted {comp : α → α → Bool} (hswo : IsSWO comp)
    {a : List α} {i : Nat} (h : i < a.length)
    (hsorted : SortedL comp (a.take i)) :
    SortedL comp ((insertStep comp a i).take (i + 1)) := by
  have hb := upperBoundLoop_bounds comp (nth a i) a i 0
  have hspec := upperBoundLoop_spec comp (nth a i) a i 0
    (insert_mono hswo (Nat.le_of_lt h) hsorted (nth a i))
  set p := upperBoundLoop comp (nth a i) a 0 i with hp
  have hpi : p ≤ i := by omega
  have htkl : (a.take p).length = p :=
    List.length_take_of_le (by omega)
  have hmidl : ((a.drop p).take (i - p)).length = i - p := by
    rw [List.length_take, List.length_drop]
    omega
  have hdef : insertStep comp a i =
      a.take p ++ nth a i :: ((a.drop p).take (i - p)) ++ a.drop (i + 1) := rfl
  rw [hdef, List.take_left'
    (by rw [List.length_append, List.length_cons, htkl, hmidl]; omega)]
  rw [SortedL, List.chain'_append]
  refine ⟨?_, ?_, ?_⟩
  · have : a.take p = (a.take i).take p := by
      rw [List.take_take, Nat.min_eq_left hpi]
    rw [this]
    exact hsorted.take p
  · rw [List.chain'_cons']
    constructor
    · intro y hy
      rw [List.head?_eq_getElem?] at hy
      rcases Nat.eq_zero_or_pos (i - p) with hz | hz
      · rw [hz, List.take_zero] at hy
        simp at hy
      · rw [List.getElem?_take_of_lt hz, List.getElem?_drop,
          Nat.add_zero] at hy
        rw [List.getElem?_eq_getElem (by omega)] at hy
        have hyv : y = nth a p := by
          rw [nth_eq_getElem (by omega)]
          simpa using hy.symm
        rw [hyv]
        exact hswo.asymm (hspec.2 p (Nat.le_refl p) (by omega))
    · have : (a.drop p).take (i - p) = (a.take i).drop p := by
        rw [List.drop_take]
      rw [this]
      exact hsorted.drop p
  · intro x hx y hy
    rw [List.getLast?_eq_getElem?, htkl] at hx
    rcases Nat.eq_zero_or_pos p with hz | hz
    · rw [hz] at hx
      simp at hx
    · rw [List.getElem?_take_of_lt (by omega),
        List.getElem?_eq_getElem (by omega)] at hx
      have hxv : x = nth a (p - 1) := by
        rw [nth_eq_getElem (by omega)]
        simpa using hx.symm
      rw [List.head?_eq_getElem?] at hy
      rw [List.getElem?_cons_zero] at hy
      have hyv : y = nth a i := by simpa using hy.symm
      rw [hxv, hyv]
      exact hspec.1 (p - 1) (by omega) (by omega)

theorem insertionLoop_spec {comp : α → α → Bool} (hswo : IsSWO comp) :
    ∀ (n : Nat) (a : List α) (i : Nat), a.length - i ≤ n →
      SortedL comp (a.take i) →
      ((insertionLoop comp a i).Perm a ∧
        SortedL comp (insertionLoop comp a i)) := by
  intro n
  induction n with
  | zero =>
      intro a i hle hs
      rw [insertionLoop, dif_neg (by omega)]
      refine ⟨List.Perm.refl a, ?_⟩
      rw [List.take_of_length_le (by omega)] at hs
      exact hs
  | succ n ih =>
      intro a i hle hs
      by_cases h : i < a.length
      · rw [insertionLoop, dif_pos h]
        have hlen : (insertStep comp a i).length = a.length := insertStep_length h
        have hrec := ih (insertStep comp a i) (i + 1) (by omega)
          (insertStep_sorted hswo h hs)
        exact ⟨hrec.1.trans (insertStep_perm comp h), hrec.2⟩
      · rw [insertionLoop, dif_neg h]
        refine ⟨List.Perm.refl a, ?_⟩
        rw [List.take_of_length_le (by omega)] at hs
        exact hs

/-- `insertion_sort` permutes its range. -/
theorem insertion_sort_perm {comp : α → α → Bool} (hswo : IsSWO comp)
    (a : List α) : (insertion_sort comp a).Perm a := by
  unfold insertion_sort
  split
  · exact List.Perm.refl a
  · refine (insertionLoop_spec hswo a.length a 1 (by omega) ?_).1
    cases a with
    | nil => simp [SortedL]
    | cons x t => simpa [SortedL] using List.chain'_singleton x

/-- `insertion_sort` sorts its range (adjacent form). -/
theorem insertion_sort_sorted {comp : α → α → Bool} (hswo : IsSWO comp)
    (a : List α) : SortedL comp (insertion_sort comp a) := by
  unfold insertion_sort
  split
  · rename_i hz
    rw [List.length_eq_zero] at hz
    subst hz
    simp [SortedL]
  · refine (insertionLoop_spec hswo a.length a 1 (by omega) ?_).2
    cases a with
    | nil => simp [SortedL]
    | cons x t => simpa [SortedL] using List.chain'_singleton x

end InsertionSort

section Partition

variable {α : Type} [Inhabited α]

/-- Model of `rei::median_of_three` over positions `ia, ib, ic` of the
working range: position whose element is the median under `comp`. -/
def median_of_three (a : List α) (ia ib ic : Nat) (comp : α → α → Bool) :
    Nat :=
  if comp (nth a ia) (nth a ib) then
    if comp (nth a ib) (nth a ic) then ib
    else if comp (nth a ia) (nth a ic) then ic
    else ia
  else
    if comp (nth a ic) (nth a ib) then ib
    else if comp (nth a ic) (nth a ia) then ic
    else ia

theorem median_of_three_cases (a : List α) (ia ib ic : Nat)
    (comp : α → α → Bool) :
    median_of_three a ia ib ic comp = ia ∨
      median_of_three a ia ib ic comp = ib ∨
      median_of_three a ia ib ic comp = ic := by
  unfold median_of_three
  split <;> split <;> try split
  all_goals simp

/-- Dutch-national-flag loop of `partition_3way`.  The inclusive cursor
`gt` of the source is carried as the exclusive bound `g = gt + 1`, so the
loop guard `i ≤ gt` reads `i < g`, the swap partner `gt` reads `g - 1`, and
the returned pair `(lt, gt + 1)` reads `(lt, g)`. -/
def partitionLoop (comp : α → α → Bool) (pivot : α) (a : List α)
    (lt i g : Nat) : List α × Nat × Nat :=
  if _h : i < g then
    if comp (nth a i) pivot then
      partitionLoop comp pivot (swapL a lt i) (lt + 1) (i + 1) g
    else if comp pivot (nth a i) then
      partitionLoop comp pivot (swapL a i (g - 1)) lt i (g - 1)
    else
      partitionLoop comp pivot a lt (i + 1) g
  else (a, lt, g)
termination_by g - i
decreasing_by
  · omega
  · omega
  · omega

/-- Model of `rei::partition_3way`: median-of-three pivot selection, pivot
swapped to the front and snapshotted, then the three-way loop. -/
def partition_3way (a : List α) (comp : α → α → Bool) :
    List α × Nat × Nat :=
  if a.length = 0 then (a, 0, 0)
  else
    let mid := a.length / 2
    let p := median_of_three a 0 mid (a.length - 1) comp
    let a1 := swapL a 0 p
    let pivot := nth a1 0
    partitionLoop comp pivot a1 0 1 a.length

/-- Unconditional cursor bounds of the partition loop (no ordering
assumptions): needed for the termination of the introsort driver. -/
theorem partitionLoop_bounds (comp : α → α → Bool) (pivot : α) :
    ∀ (m : Nat) (a : List α) (lt i g : Nat), g - i ≤ m → lt < i → i ≤ g →
      g ≤ a.length →
      (lt ≤ (partitionLoop comp pivot a lt i g).2.1 ∧
        (partitionLoop comp pivot a lt i g).2.1 <
          (partitionLoop comp pivot a lt i g).2.2 ∧
        (partitionLoop comp pivot a lt i g).2.2 ≤ g ∧
        (partitionLoop comp pivot a lt i g).1.length = a.length) := by
  intro m
  induction m with
  | zero =>
      intro a lt i g hm h1 h2 h3
      rw [partitionLoop, dif_neg (by omega)]
      exact ⟨Nat.le_refl lt, show lt < g by omega, Nat.le_refl g, rfl⟩
  | succ m ih =>
      intro a lt i g hm h1 h2 h3
      by_cases h : i < g
      · rw [partitionLoop, dif_pos h]
        by_cases hc1 : comp (nth a i) pivot = true
        · rw [if_pos hc1]
          have := ih (swapL a lt i) (lt + 1) (i + 1) g (by omega) (by omega)
            (by omega) (by simpa using h3)
          simp only [length_swapL] at this
          omega
        · rw [if_neg hc1]
          by_cases hc2 : comp pivot (nth a i) = true
          · rw [if_pos hc2]
            have := ih (swapL a i (g - 1)) lt i (g - 1) (by omega) (by omega)
              (by omega) (by simp only [length_swapL]; omega)
            simp only [length_swapL] at this
            omega
          · rw [if_neg hc2]
            have := ih a lt (i + 1) g (by omega) (by omega) (by omega) h3
            omega
      · rw [partitionLoop, dif_neg h]
        exact ⟨Nat.le_refl lt, show lt < g by omega, Nat.le_refl g, rfl⟩

theorem partition_3way_bounds {comp : α → α → Bool} {a : List α}
    (hne : a.length ≠ 0) :
    (partition_3way a comp).2.1 < (partition_3way a comp).2.2 ∧
      (partition_3way a comp).2.2 ≤ a.length ∧
      (partition_3way a comp).1.length = a.length := by
  unfold partition_3way
  rw [if_neg hne]
  have hb := partitionLoop_bounds comp
    (nth (swapL a 0 (median_of_three a 0 (a.length / 2) (a.length - 1) comp)) 0)
    a.length
    (swapL a 0 (median_of_three a 0 (a.length / 2) (a.length - 1) comp))
    0 1 a.length (by omega) (by omega) (by omega) (by simp)
  simp only [length_swapL] at hb
  exact ⟨hb.2.1, hb.2.2.1, hb.2.2.2⟩

/-- Region invariant of the partition loop: elements below `lt` are less
than the pivot, elements in `[lt, i)` are equivalent to it, elements from
`g` on are greater; the loop extends these regions until `i` meets `g`. -/
theorem partitionLoop_spec (comp : α → α → Bool) (pivot : α) :
    ∀ (m : Nat) (a : List α) (lt i g : Nat) (b : List α) (lt' g' : Nat),
      g - i ≤ m → lt < i → i ≤ g → g ≤ a.length →
      (∀ k, k < lt → comp (nth a k) pivot = true) →
      (∀ k, lt ≤ k → k < i → comp (nth a k) pivot = false ∧
        comp pivot (nth a k) = false) →
      (∀ k, g ≤ k → k < a.length → comp pivot (nth a k) = true) →
      partitionLoop comp pivot a lt i g = (b, lt', g') →
      (b.Perm a ∧
        (∀ k, k < lt' → comp (nth b k) pivot = true) ∧
        (∀ k, lt' ≤ k → k < g' → comp (nth b k) pivot = false ∧
          comp pivot (nth b k) = false) ∧
        (∀ k, g' ≤ k → k < a.length → comp pivot (nth b k) = true)) := by
  intro m
  induction m with
  | zero =>
      intro a lt i g b lt' g' hm h1 h2 h3 hlow hmid hhigh hres
      rw [partitionLoop, dif_neg (by omega)] at hres
      obtain ⟨rfl, rfl, rfl⟩ : a = b ∧ lt = lt' ∧ g = g' := by
        have h := hres
        injection h with ha htl
        injection htl with hl hg
        exact ⟨ha, hl, hg⟩
      refine ⟨List.Perm.refl a, hlow, fun k hk1 hk2 => ?_, hhigh⟩
      exact hmid k hk1 (by omega)
  | succ m ih =>
      intro a lt i g b lt' g' hm h1 h2 h3 hlow hmid hhigh hres
      by_cases h : i < g
      · rw [partitionLoop, dif_pos h] at hres
        have hilen : i < a.length := by omega
        have hltlen : lt < a.length := by omega
        by_cases hc1 : comp (nth a i) pivot = true
        · rw [if_pos hc1] at hres
          have hrec := ih (swapL a lt i) (lt + 1) (i + 1) g b lt' g'
            (by omega) (by omega) (by omega) (by simpa using h3)
            (fun k hk => ?low) (fun k hk1 hk2 => ?mid)
            (fun k hk1 hk2 => ?high) hres
          case low =>
            rcases Nat.lt_or_ge k lt with hk' | hk'
            · rw [nth_swapL_other (by omega) (by omega)]
              exact hlow k hk'
            · have hkeq : k = lt := by omega
              subst hkeq
              rw [nth_swapL_left hltlen hilen]
              exact hc1
          case mid =>
            rcases Nat.lt_or_ge k i with hk' | hk'
            · rw [nth_swapL_other (by omega) (by omega)]
              exact hmid k (by omega) hk'
            · have hkeq : k = i := by omega
              subst hkeq
              rw [nth_swapL_right hltlen hilen]
              exact hmid lt (Nat.le_refl lt) h1
          case high =>
            rw [length_swapL] at hk2
            rw [nth_swapL_other (by omega) (by omega)]
            exact hhigh k hk1 hk2
          rw [length_swapL] at hrec
          exact ⟨hrec.1.trans (swapL_perm a hltlen hilen), hrec.2⟩
        · rw [if_neg hc1] at hres
          have hc1' : comp (nth a i) pivot = false := Bool.eq_false_iff.mpr hc1
          by_cases hc2 : comp pivot (nth a i) = true
          · rw [if_pos hc2] at hres
            have hg1len : g - 1 < a.length := by omega
            have hrec := ih (swapL a i (g - 1)) lt i (g - 1) b lt' g'
              (by omega) h1 (by omega) (by simp only [length_swapL]; omega)
              (fun k hk => ?low2) (fun k hk1 hk2 => ?mid2)
              (fun k hk1 hk2 => ?high2) hres
            case low2 =>
              rw [nth_swapL_other (by omega) (by omega)]
              exact hlow k hk
            case mid2 =>
              rw [nth_swapL_other (by omega) (by omega)]
              exact hmid k hk1 hk2
            case high2 =>
              rw [length_swapL] at hk2
              rcases Nat.lt_or_ge k g with hk' | hk'
              · have hkeq : k = g - 1 := by omega
                subst hkeq
                rw [nth_swapL_right hilen hg1len]
                exact hc2
              · rw [nth_swapL_other (by omega) (by omega)]
                exact hhigh k hk' hk2
            rw [length_swapL] at hrec
            exact ⟨hrec.1.trans (swapL_perm a hilen hg1len), hrec.2⟩
          · rw [if_neg hc2] at hres
            have hc2' : comp pivot (nth a i) = false :=
              Bool.eq_false_iff.mpr hc2
            exact ih a lt (i + 1) g b lt' g' (by omega) (by omega) (by omega)
              h3 hlow
              (fun k hk1 hk2 => by
                rcases Nat.lt_or_ge k i with hk' | hk'
                · exact hmid k hk1 hk'
                · have hkeq : k = i := by omega
                  subst hkeq
                  exact ⟨hc1', hc2'⟩)
              hhigh hres
      · rw [partitionLoop, dif_neg h] at hres
        obtain ⟨rfl, rfl, rfl⟩ : a = b ∧ lt = lt' ∧ g = g' := by
          have h' := hres
          injection h' with ha htl
          injection htl with hl hg
          exact ⟨ha, hl, hg⟩
        refine ⟨List.Perm.refl a, hlow, fun k hk1 hk2 => ?_, hhigh⟩
        exact hmid k hk1 (by omega)

/-- Full specification of `partition_3way` on a non-empty range, under the
strict-weak-order assumptions: the result is a permutation split into the
three regions around the median-of-three pivot. -/
theorem partition_3way_spec {comp : α → α → Bool} (hswo : IsSWO comp)
    {a b : List α} {lt g : Nat} (hne : a.length ≠ 0)
    (hres : partition_3way a comp = (b, lt, g)) :
    b.Perm a ∧ b.length = a.length ∧ lt < g ∧ g ≤ a.length ∧
      (∀ k, k < lt →
        comp (nth b k)
          (nth a (median_of_three a 0 (a.length / 2) (a.length - 1) comp)) =
          true) ∧
      (∀ k, lt ≤ k → k < g →
        comp (nth b k)
          (nth a (median_of_three a 0 (a.length / 2) (a.length - 1) comp)) =
          false ∧
        comp (nth a (median_of_three a 0 (a.length / 2) (a.length - 1) comp))
          (nth b k) = false) ∧
      (∀ k, g ≤ k → k < a.length →
        comp (nth a (median_of_three a 0 (a.length / 2) (a.length - 1) comp))
          (nth b k) = true) := by
  have hbnd : (partition_3way a comp).2.1 < (partition_3way a comp).2.2 ∧
      (partition_3way a comp).2.2 ≤ a.length ∧
      (partition_3way a comp).1.length = a.length := partition_3way_bounds hne
  rw [hres] at hbnd
  have hplt : median_of_three a 0 (a.length / 2) (a.length - 1) comp <
      a.length := by
    rcases median_of_three_cases a 0 (a.length / 2) (a.length - 1) comp with
      hc | hc | hc <;> rw [hc] <;> omega
  have hpiv : nth (swapL a 0
      (median_of_three a 0 (a.length / 2) (a.length - 1) comp)) 0 =
      nth a (median_of_three a 0 (a.length / 2) (a.length - 1) comp) :=
    nth_swapL_left (by omega) hplt
  have hres' : partitionLoop comp
      (nth (swapL a 0 (median_of_three a 0 (a.length / 2) (a.length - 1) comp)) 0)
      (swapL a 0 (median_of_three a 0 (a.length / 2) (a.length - 1) comp))
      0 1 a.length = (b, lt, g) := by
    rw [← hres]
    unfold partition_3way
    rw [if_neg hne]
  have hspec := partitionLoop_spec comp
    (nth (swapL a 0 (median_of_three a 0 (a.length / 2) (a.length - 1) comp)) 0)
    a.length
    (swapL a 0 (median_of_three a 0 (a.length / 2) (a.length - 1) comp))
    0 1 a.length b lt g (by omega) (by omega) (by omega) (by simp)
    (fun k hk => by omega)
    (fun k hk1 hk2 => by
      have hkeq : k = 0 := by omega
      subst hkeq
      exact ⟨hswo.irrefl _, hswo.irrefl _⟩)
    (fun k hk1 hk2 => by
      rw [length_swapL] at hk2
      omega)
    hres'
  rw [hpiv] at hspec
  simp only [length_swapL] at hspec
  refine ⟨hspec.1.trans (swapL_perm a (by omega) hplt), ?_, hbnd.1, hbnd.2.1,
    hspec.2.1, hspec.2.2.1, hspec.2.2.2⟩
  rw [List.Perm.length_eq (hspec.1.trans (swapL_perm a (by omega) hplt))]

end Partition

section Heap

variable {α : Type} [Inhabited α]

/-- Pointwise equality at every index plus equal length forces equality. -/
theorem ext_nth {u v : List α} (hlen : u.length = v.length)
    (h : ∀ k, k < u.length → nth u k = nth v k) : u = v := by
  apply List.ext_getElem hlen
  intro k hk1 hk2
  have := h k hk1
  rw [nth_eq_getElem hk1, nth_eq_getElem hk2] at this
  exact this

theorem nth_drop {a : List α} {m k : Nat} :
    nth (a.drop m) k = nth a (m + k) := by
  unfold nth
  rw [List.getD_eq_getElem?_getD, List.getD_eq_getElem?_getD,
    List.getElem?_drop]

theorem nth_mem_take {a : List α} {k m : Nat} (hk : k < m)
    (hk2 : k < a.length) : nth a k ∈ a.take m := by
  rw [List.mem_iff_getElem]
  refine ⟨k, by simp; omega, ?_⟩
  rw [← nth_eq_getElem (a := a.take m) (by simp; omega), nth_take hk]

theorem take_swapL {a : List α} {i j m : Nat} (hi : i < m) (hj : j < m)
    (hm : m ≤ a.length) : (swapL a i j).take m = swapL (a.take m) i j := by
  apply ext_nth
  · simp only [List.length_take, length_swapL]
  · intro k hk
    simp only [List.length_take, length_swapL] at hk
    have hkm : k < m := by omega
    have hka : k < a.length := by omega
    rw [nth_take hkm]
    by_cases hki : k = i
    · subst hki
      rw [nth_swapL_left hka (by omega), nth_swapL_left (by simp; omega)
        (by simp; omega), nth_take hj]
    · by_cases hkj : k = j
      · subst hkj
        rw [nth_swapL_right (by omega) hka, nth_swapL_right (by simp; omega)
          (by simp; omega), nth_take hi]
      · rw [nth_swapL_other hki hkj, nth_swapL_other hki hkj, nth_take hkm]

/-- Prefix multisets agree when two ranges are permutations that agree
beyond the prefix. -/
theorem take_perm_of_drop_eq {u v : List α} {m : Nat} (hperm : u.Perm v)
    (hdrop : u.drop m = v.drop m) : (u.take m).Perm (v.take m) := by
  have hu := List.take_append_drop m u
  have hv := List.take_append_drop m v
  rw [← List.perm_append_right_iff (u.drop m), hu]
  have hv' : v.take m ++ u.drop m = v := by rw [hdrop]; exact hv
  rw [hv']
  exact hperm

/-- Descendants of a node in the implicit binary heap layout. -/
inductive Desc : Nat → Nat → Prop
  | refl (r : Nat) : Desc r r
  | left {r k : Nat} : Desc r k → Desc r (2 * k + 1)
  | right {r k : Nat} : Desc r k → Desc r (2 * k + 2)

theorem Desc.le {r k : Nat} (h : Desc r k) : r ≤ k := by
  induction h with
  | refl => exact Nat.le_refl r
  | left _ ih => omega
  | right _ ih => omega

theorem Desc.trans {r s k : Nat} (h1 : Desc r s) (h2 : Desc s k) :
    Desc r k := by
  induction h2 with
  | refl => exact h1
  | left _ ih => exact Desc.left ih
  | right _ ih => exact Desc.right ih

theorem Desc.parent {r k : Nat} (h : Desc r k) :
    k = r ∨ ∃ m, Desc r m ∧ (k = 2 * m + 1 ∨ k = 2 * m + 2) := by
  cases h with
  | refl => exact Or.inl rfl
  | left h => exact Or.inr ⟨_, h, Or.inl rfl⟩
  | right h => exact Or.inr ⟨_, h, Or.inr rfl⟩

/-- A node is never a descendant of its sibling or of anything to its
right below it. -/
theorem not_desc_of_lt {r k : Nat} (hk : k < r) : ¬ Desc r k :=
  fun h => absurd h.le (by omega)

theorem not_desc_sibling {r m : Nat} (hm : r = 2 * m + 1) :
    ¬ Desc r (2 * m + 2) := by
  intro h
  rcases h.parent with heq | ⟨p, hp, hc⟩
  · omega
  · have := hp.le
    omega

/-- Binary max-heap property of the prefix `[0, sz)` of a range: no parent
is less than either of its in-bounds children. -/
def HeapProp (comp : α → α → Bool) (a : List α) (sz : Nat) : Prop :=
  ∀ p c, c < sz → (c = 2 * p + 1 ∨ c = 2 * p + 2) →
    comp (nth a p) (nth a c) = false

/-- Model of `rei::sift_down` on the heap prefix `[0, sz)`, starting at
`root`; the larger child is selected, then swap and descend while the
parent compares below it. -/
def sift_down (comp : α → α → Bool) (a : List α) (sz root : Nat) : List α :=
  if _h : 2 * root + 1 < sz then
    if _hc : 2 * root + 1 + 1 < sz ∧
        comp (nth a (2 * root + 1)) (nth a (2 * root + 1 + 1)) = true then
      if comp (nth a root) (nth a (2 * root + 2)) then
        sift_down comp (swapL a root (2 * root + 2)) sz (2 * root + 2)
      else a
    else
      if comp (nth a root) (nth a (2 * root + 1)) then
        sift_down comp (swapL a root (2 * root + 1)) sz (2 * root + 1)
      else a
  else a
termination_by sz - root
decreasing_by
  · omega
  · omega

/-- Loop of `rei::heapify`: sift from `(size-2)/2` down to `0`, the break
at `i == 0` guarding against index underflow. -/
def heapifyLoop (comp : α → α → Bool) (sz : Nat) (a : List α) (i : Nat) :
    List α :=
  if _h : i = 0 then sift_down comp a sz 0
  else heapifyLoop comp sz (sift_down comp a sz i) (i - 1)
termination_by i

/-- Model of `rei::heapify`: bottom-up heap construction. -/
def heapify (comp : α → α → Bool) (a : List α) : List α :=
  if a.length ≤ 1 then a
  else heapifyLoop comp a.length a ((a.length - 2) / 2)

/-- Tear-down loop of `rei::heapsort_range`: swap the root with the last
heap element, shrink the heap, and restore the heap property. -/
def heapsortLoop (comp : α → α → Bool) (a : List α) (endIdx : Nat) :
    List α :=
  if _h : endIdx = 0 then a
  else
    heapsortLoop comp (sift_down comp (swapL a 0 endIdx) endIdx 0)
      (endIdx - 1)
termination_by endIdx

/-- Model of `rei::heapsort_range`: heapify then repeatedly extract the
maximum. -/
def heapsort_range (comp : α → α → Bool) (a : List α) : List α :=
  if a.length = 0 then a
  else heapsortLoop comp (heapify comp a) (a.length - 1)

/-- Heap edges below a threshold node dominate all its descendants. -/
theorem subtree_dom {comp : α → α → Bool} (hswo : IsSWO comp) {a : List α}
    {sz t : Nat}
    (hedge : ∀ p c, t ≤ p → c < sz → (c = 2 * p + 1 ∨ c = 2 * p + 2) →
      comp (nth a p) (nth a c) = false) :
    ∀ k, Desc t k → k < sz → comp (nth a t) (nth a k) = false := by
  intro k hd
  induction hd with
  | refl => intro _; exact hswo.irrefl _
  | @left m hm ih =>
      intro hk
      have hedge1 := hedge m (2 * m + 1) hm.le (by omega) (Or.inl rfl)
      exact hswo.le_trans hedge1 (ih (by omega))
  | @right m hm ih =>
      intro hk
      have hedge1 := hedge m (2 * m + 2) hm.le (by omega) (Or.inr rfl)
      exact hswo.le_trans hedge1 (ih (by omega))

/-- Non-descendants of a node stay non-descendants through its children. -/
theorem not_desc_step {ch q c' : Nat} (hq : ¬ Desc ch q) (hc : c' ≠ ch)
    (hedge : c' = 2 * q + 1 ∨ c' = 2 * q + 2) : ¬ Desc ch c' := by
  intro hd
  rcases hd.parent with heq | ⟨m, hm, hmc⟩
  · exact hc heq
  · have hmq : m = q := by omega
    subst hmq
    exact hq hm

/-- Full specification of `sift_down`: it permutes the heap region below
`root`, touches only descendants of `root` inside `[0, sz)`, restores every
heap edge whose parent is at or below `root`, and preserves any upper bound
on the subtree values. -/
theorem sift_down_spec {comp : α → α → Bool} (hswo : IsSWO comp) :
    ∀ (m : Nat) (a : List α) (sz root : Nat), sz - root ≤ m →
      sz ≤ a.length →
      (∀ p c, root + 1 ≤ p → c < sz → (c = 2 * p + 1 ∨ c = 2 * p + 2) →
        comp (nth a p) (nth a c) = false) →
      ((sift_down comp a sz root).Perm a ∧
        (sift_down comp a sz root).length = a.length ∧
        (∀ k, ¬ Desc root k → nth (sift_down comp a sz root) k = nth a k) ∧
        (∀ k, sz ≤ k → nth (sift_down comp a sz root) k = nth a k) ∧
        (∀ p c, root ≤ p → c < sz → (c = 2 * p + 1 ∨ c = 2 * p + 2) →
          comp (nth (sift_down comp a sz root) p)
            (nth (sift_down comp a sz root) c) = false) ∧
        (∀ ub, (∀ k, Desc root k → k < sz → comp ub (nth a k) = false) →
          ∀ k, Desc root k → k < sz →
            comp ub (nth (sift_down comp a sz root) k) = false)) := by
  intro m
  induction m with
  | zero =>
      intro a sz root hm hsz hedge
      rw [sift_down, dif_neg (by omega)]
      refine ⟨List.Perm.refl a, rfl, fun k _ => rfl, fun k _ => rfl,
        fun p c hc1 hc2 hc3 => ?_, fun ub hub k hk1 hk2 => hub k hk1 hk2⟩
      by_cases hpr : root = p
      · omega
      · rcases Nat.lt_or_ge p root with hp | hp
        · omega
        · exact hedge p c (by omega) hc2 hc3
  | succ m ih =>
      intro a sz root hm hsz hedge
      by_cases h1 : 2 * root + 1 < sz
      · by_cases h2 : 2 * root + 1 + 1 < sz ∧
            comp (nth a (2 * root + 1)) (nth a (2 * root + 1 + 1)) = true
        · -- right child selected
          by_cases h3 : comp (nth a root) (nth a (2 * root + 2)) = true
          · rw [sift_down, dif_pos h1, dif_pos h2, if_pos h3]
            have hchd : Desc root (2 * root + 2) := Desc.right (Desc.refl root)
            have hndr : ¬ Desc (2 * root + 2) root := not_desc_of_lt (by omega)
            have hbedge : ∀ p c, 2 * root + 2 + 1 ≤ p → c < sz →
                (c = 2 * p + 1 ∨ c = 2 * p + 2) →
                comp (nth (swapL a root (2 * root + 2)) p)
                  (nth (swapL a root (2 * root + 2)) c) = false := by
              intro p c hp hc hcc
              rw [nth_swapL_other (by omega) (by omega),
                nth_swapL_other (by omega) (by omega)]
              exact hedge p c (by omega) hc hcc
            have hrec := ih (swapL a root (2 * root + 2)) sz (2 * root + 2)
              (by omega) (by simpa using hsz) hbedge
            obtain ⟨hp1, hp2, hp3, hp4, hp5, hp6⟩ := hrec
            have hlen' : (sift_down comp (swapL a root (2 * root + 2)) sz
                (2 * root + 2)).length = a.length := by
              simpa using hp2
            have hswap := swapL_perm a (i := root) (j := 2 * root + 2)
              (by omega) (by omega)
            have hroot' : nth (sift_down comp (swapL a root (2 * root + 2))
                sz (2 * root + 2)) root = nth a (2 * root + 2) := by
              rw [hp3 root hndr, nth_swapL_left (by omega) (by omega)]
            have hdomhyp : ∀ k, Desc (2 * root + 2) k → k < sz →
                comp (nth a (2 * root + 2))
                  (nth (swapL a root (2 * root + 2)) k) = false := by
              intro k hk1 hk2
              by_cases hkc : k = 2 * root + 2
              · subst hkc
                rw [nth_swapL_right (by omega) (by omega)]
                exact hswo.asymm h3
              · rw [nth_swapL_other
                  (fun hh => hndr (by rw [hh] at hk1; exact hk1)) hkc]
                exact subtree_dom hswo
                  (fun p c hp hc hcc => hedge p c (by omega) hc hcc) k hk1 hk2
            refine ⟨hp1.trans hswap, hlen', ?_, ?_, ?_, ?_⟩
            · intro k hk
              have hk1 : ¬ Desc (2 * root + 2) k :=
                fun hh => hk (hchd.trans hh)
              rw [hp3 k hk1, nth_swapL_other
                (fun hh => hk (by rw [hh]; exact Desc.refl root))
                (fun hh => hk (by rw [hh]; exact hchd))]
            · intro k hk
              rw [hp4 k hk, nth_swapL_other (by omega) (by omega)]
            · intro p c hc1 hc2 hc3
              rcases Nat.lt_or_ge p (2 * root + 2) with hp | hp
              · by_cases hpr : root = p
                · subst hpr
                  rcases hc3 with rfl | rfl
                  · -- c = left child = sibling of selected
                    have hns : ¬ Desc (2 * root + 2) (2 * root + 1) :=
                      not_desc_of_lt (by omega)
                    rw [hroot', hp3 _ hns,
                      nth_swapL_other (by omega) (by omega)]
                    exact hswo.asymm h2.2
                  · -- c = right child = selected
                    rw [hroot']
                    exact hp6 (nth a (2 * root + 2)) hdomhyp (2 * root + 2)
                      (Desc.refl _) hc2
                · -- root < p < ch : untouched on both ends
                  have hnp : ¬ Desc (2 * root + 2) p := not_desc_of_lt hp
                  have hnc : ¬ Desc (2 * root + 2) c :=
                    not_desc_step hnp (by omega) hc3
                  rw [hp3 p hnp, hp3 c hnc,
                    nth_swapL_other (by omega) (by omega),
                    nth_swapL_other (by omega) (by omega)]
                  exact hedge p c (by omega) hc2 hc3
              · exact hp5 p c hp hc2 hc3
            · intro ub hub k hk1 hk2
              by_cases hkd : Desc (2 * root + 2) k
              · refine hp6 ub ?_ k hkd hk2
                intro j hj1 hj2
                by_cases hjc : j = 2 * root + 2
                · subst hjc
                  rw [nth_swapL_right (by omega) (by omega)]
                  exact hub root (Desc.refl root) (by omega)
                · rw [nth_swapL_other
                    (fun hh => hndr (by rw [hh] at hj1; exact hj1)) hjc]
                  exact hub j (hchd.trans hj1) hj2
              · rw [hp3 k hkd]
                by_cases hkr : root = k
                · subst hkr
                  rw [nth_swapL_left (by omega) (by omega)]
                  exact hub (2 * root + 2) hchd (by omega)
                · rw [nth_swapL_other (fun hh => hkr hh.symm)
                    (fun hh => hkd (by rw [hh]; exact Desc.refl _))]
                  exact hub k hk1 hk2
          · rw [sift_down, dif_pos h1, dif_pos h2, if_neg h3]
            have h3' : comp (nth a root) (nth a (2 * root + 2)) = false :=
              Bool.eq_false_iff.mpr h3
            refine ⟨List.Perm.refl a, rfl, fun k _ => rfl, fun k _ => rfl,
              fun p c hc1 hc2 hc3 => ?_, fun ub hub k hk1 hk2 => hub k hk1 hk2⟩
            by_cases hpr : root = p
            · subst hpr
              rcases hc3 with rfl | rfl
              · cases hcl : comp (nth a root) (nth a (2 * root + 1)) with
                | false => rfl
                | true =>
                    have htr := hswo.trans _ _ _ hcl h2.2
                    have he2 : 2 * root + 1 + 1 = 2 * root + 2 := by omega
                    rw [he2] at htr
                    rw [htr] at h3'
                    exact absurd h3' (by simp)
              · exact h3'
            · exact hedge p c (by omega) hc2 hc3
        · -- left child selected
          by_cases h3 : comp (nth a root) (nth a (2 * root + 1)) = true
          · rw [sift_down, dif_pos h1, dif_neg h2, if_pos h3]
            have hchd : Desc root (2 * root + 1) := Desc.left (Desc.refl root)
            have hndr : ¬ Desc (2 * root + 1) root := not_desc_of_lt (by omega)
            have hbedge : ∀ p c, 2 * root + 1 + 1 ≤ p → c < sz →
                (c = 2 * p + 1 ∨ c = 2 * p + 2) →
                comp (nth (swapL a root (2 * root + 1)) p)
                  (nth (swapL a root (2 * root + 1)) c) = false := by
              intro p c hp hc hcc
              rw [nth_swapL_other (by omega) (by omega),
                nth_swapL_other (by omega) (by omega)]
              exact hedge p c (by omega) hc hcc
            have hrec := ih (swapL a root (2 * root + 1)) sz (2 * root + 1)
              (by omega) (by simpa using hsz) hbedge
            obtain ⟨hp1, hp2, hp3, hp4, hp5, hp6⟩ := hrec
            have hlen' : (sift_down comp (swapL a root (2 * root + 1)) sz
                (2 * root + 1)).length = a.length := by
              simpa using hp2
            have hswap := swapL_perm a (i := root) (j := 2 * root + 1)
              (by omega) (by omega)
            have hroot' : nth (sift_down comp (swapL a root (2 * root + 1))
                sz (2 * root + 1)) root = nth a (2 * root + 1) := by
              rw [hp3 root hndr, nth_swapL_left (by omega) (by omega)]
            have hdomhyp : ∀ k, Desc (2 * root + 1) k → k < sz →
                comp (nth a (2 * root + 1))
                  (nth (swapL a root (2 * root + 1)) k) = false := by
              intro k hk1 hk2
              by_cases hkc : k = 2 * root + 1
              · subst hkc
                rw [nth_swapL_right (by omega) (by omega)]
                exact hswo.asymm h3
              · rw [nth_swapL_other
                  (fun hh => hndr (by rw [hh] at hk1; exact hk1)) hkc]
                exact subtree_dom hswo
                  (fun p c hp hc hcc => hedge p c (by omega) hc hcc) k hk1 hk2
            refine ⟨hp1.trans hswap, hlen', ?_, ?_, ?_, ?_⟩
            · intro k hk
              have hk1 : ¬ Desc (2 * root + 1) k :=
                fun hh => hk (hchd.trans hh)
              rw [hp3 k hk1, nth_swapL_other
                (fun hh => hk (by rw [hh]; exact Desc.refl root))
                (fun hh => hk (by rw [hh]; exact hchd))]
            · intro k hk
              rw [hp4 k hk, nth_swapL_other (by omega) (by omega)]
            · intro p c hc1 hc2 hc3
              rcases Nat.lt_or_ge p (2 * root + 1) with hp | hp
              · by_cases hpr : root = p
                · subst hpr
                  rcases hc3 with rfl | rfl
                  · -- c = left child = selected
                    rw [hroot']
                    exact hp6 (nth a (2 * root + 1)) hdomhyp (2 * root + 1)
                      (Desc.refl _) hc2
                  · -- c = right child = unselected sibling
                    have hns : ¬ Desc (2 * root + 1) (2 * root + 2) :=
                      not_desc_sibling rfl
                    rw [hroot', hp3 _ hns,
                      nth_swapL_other (by omega) (by omega)]
                    have hsel : comp (nth a (2 * root + 1))
                        (nth a (2 * root + 1 + 1)) = false := by
                      rcases Decidable.not_and_iff_or_not.mp h2 with hA | hB
                      · omega
                      · exact Bool.eq_false_iff.mpr hB
                    simpa using hsel
                · -- root < p < ch : untouched on both ends
                  have hnp : ¬ Desc (2 * root + 1) p := not_desc_of_lt hp
                  have hnc : ¬ Desc (2 * root + 1) c :=
                    not_desc_step hnp (by omega) hc3
                  rw [hp3 p hnp, hp3 c hnc,
                    nth_swapL_other (by omega) (by omega),
                    nth_swapL_other (by omega) (by omega)]
                  exact hedge p c (by omega) hc2 hc3
              · exact hp5 p c hp hc2 hc3
            · intro ub hub k hk1 hk2
              by_cases hkd : Desc (2 * root + 1) k
              · refine hp6 ub ?_ k hkd hk2
                intro j hj1 hj2
                by_cases hjc : j = 2 * root + 1
                · subst hjc
                  rw [nth_swapL_right (by omega) (by omega)]
                  exact hub root (Desc.refl root) (by omega)
                · rw [nth_swapL_other
                    (fun hh => hndr (by rw [hh] at hj1; exact hj1)) hjc]
                  exact hub j (hchd.trans hj1) hj2
              · rw [hp3 k hkd]
                by_cases hkr : root = k
                · subst hkr
                  rw [nth_swapL_left (by omega) (by omega)]
                  exact hub (2 * root + 1) hchd (by omega)
                · rw [nth_swapL_other (fun hh => hkr hh.symm)
                    (fun hh => hkd (by rw [hh]; exact Desc.refl _))]
                  exact hub k hk1 hk2
          · rw [sift_down, dif_pos h1, dif_neg h2, if_neg h3]
            have h3' : comp (nth a root) (nth a (2 * root + 1)) = false :=
              Bool.eq_false_iff.mpr h3
            refine ⟨List.Perm.refl a, rfl, fun k _ => rfl, fun k _ => rfl,
              fun p c hc1 hc2 hc3 => ?_, fun ub hub k hk1 hk2 => hub k hk1 hk2⟩
            by_cases hpr : root = p
            · subst hpr
              rcases hc3 with rfl | rfl
              · exact h3'
              · have hsel : comp (nth a (2 * root + 1))
                    (nth a (2 * root + 1 + 1)) = false := by
                  rcases Decidable.not_and_iff_or_not.mp h2 with hA | hB
                  · omega
                  · exact Bool.eq_false_iff.mpr hB
                have he2 : 2 * root + 1 + 1 = 2 * root + 2 := by omega
                rw [he2] at hsel
                exact hswo.le_trans hsel h3'
            · exact hedge p c (by omega) hc2 hc3
      · rw [sift_down, dif_neg h1]
        refine ⟨List.Perm.refl a, rfl, fun k _ => rfl, fun k _ => rfl,
          fun p c hc1 hc2 hc3 => ?_, fun ub hub k hk1 hk2 => hub k hk1 hk2⟩
        by_cases hpr : root = p
        · omega
        · exact hedge p c (by omega) hc2 hc3

theorem nth_cons_zero (x : α) (l : List α) : nth (x :: l) 0 = x := rfl

theorem nth_cons_succ (x : α) (l : List α) (k : Nat) :
    nth (x :: l) (k + 1) = nth l k := rfl

/-- Specification of the heapify loop: sifting from `i` down to `0`
establishes the heap property, permuting only the heap prefix. -/
theorem heapifyLoop_spec {comp : α → α → Bool} (hswo : IsSWO comp) :
    ∀ (i : Nat) (a : List α) (sz : Nat), sz ≤ a.length →
      (∀ p c, i + 1 ≤ p → c < sz → (c = 2 * p + 1 ∨ c = 2 * p + 2) →
        comp (nth a p) (nth a c) = false) →
      ((heapifyLoop comp sz a i).Perm a ∧
        (heapifyLoop comp sz a i).length = a.length ∧
        (∀ k, sz ≤ k → nth (heapifyLoop comp sz a i) k = nth a k) ∧
        HeapProp comp (heapifyLoop comp sz a i) sz) := by
  intro i
  induction i with
  | zero =>
      intro a sz hsz hedge
      rw [heapifyLoop, dif_pos rfl]
      obtain ⟨hp1, hp2, _, hp4, hp5, _⟩ :=
        sift_down_spec hswo sz a sz 0 (by omega) hsz
          (fun p c hp hc hcc => hedge p c hp hc hcc)
      exact ⟨hp1, hp2, hp4, fun p c hc1 hc2 => hp5 p c (Nat.zero_le p) hc1 hc2⟩
  | succ i ih =>
      intro a sz hsz hedge
      rw [heapifyLoop, dif_neg (Nat.succ_ne_zero i)]
      simp only [Nat.add_sub_cancel]
      obtain ⟨hp1, hp2, _, hp4, hp5, _⟩ :=
        sift_down_spec hswo sz a sz (i + 1) (by omega) hsz
          (fun p c hp hc hcc => hedge p c hp hc hcc)
      have hrec := ih (sift_down comp a sz (i + 1)) sz (by omega)
        (fun p c hp hc hcc => hp5 p c (by omega) hc hcc)
      refine ⟨hrec.1.trans hp1, by rw [hrec.2.1, hp2], ?_, hrec.2.2.2⟩
      intro k hk
      rw [hrec.2.2.1 k hk, hp4 k hk]

/-- Specification of `heapify`: a permutation of the range satisfying the
max-heap property over the whole range. -/
theorem heapify_spec {comp : α → α → Bool} (hswo : IsSWO comp)
    (a : List α) :
    (heapify comp a).Perm a ∧ (heapify comp a).length = a.length ∧
      HeapProp comp (heapify comp a) a.length := by
  unfold heapify
  split
  · rename_i hlen
    refine ⟨List.Perm.refl a, rfl, fun p c hc1 hc2 => ?_⟩
    omega
  · rename_i hlen
    have hrec := heapifyLoop_spec hswo ((a.length - 2) / 2) a a.length
      (Nat.le_refl _) (fun p c hp hc hcc => by omega)
    exact ⟨hrec.1, hrec.2.1, hrec.2.2.2⟩

/-- In a max-heap the root dominates every element. -/
theorem root_max {comp : α → α → Bool} (hswo : IsSWO comp) {a : List α}
    {sz : Nat} (hheap : HeapProp comp a sz) :
    ∀ k, k < sz → comp (nth a 0) (nth a k) = false := by
  intro k
  induction k using Nat.strong_induction_on with
  | _ k ih =>
      intro hk
      rcases Nat.eq_zero_or_pos k with rfl | hpos
      · exact hswo.irrefl _
      · have hedge := hheap ((k - 1) / 2) k hk (by omega)
        exact hswo.le_trans hedge (ih ((k - 1) / 2) (by omega) (by omega))

/-- Specification of the heapsort tear-down loop: starting from a heap on
`[0, e+1)` with a sorted dominating suffix, it sorts the whole range. -/
theorem heapsortLoop_spec {comp : α → α → Bool} (hswo : IsSWO comp) :
    ∀ (e : Nat) (a : List α), e < a.length →
      HeapProp comp a (e + 1) →
      PairwiseLe comp (a.drop (e + 1)) →
      (∀ x ∈ a.take (e + 1), ∀ y ∈ a.drop (e + 1), comp y x = false) →
      ((heapsortLoop comp a e).Perm a ∧
        PairwiseLe comp (heapsortLoop comp a e)) := by
  intro e
  induction e with
  | zero =>
      intro a he hheap hsuf hcross
      rw [heapsortLoop, dif_pos rfl]
      refine ⟨List.Perm.refl a, ?_⟩
      rw [PairwiseLe, ← List.take_append_drop 1 a, List.pairwise_append]
      refine ⟨?_, hsuf, fun x hx y hy => hcross x hx y hy⟩
      cases a with
      | nil => simp
      | cons z t => simp
  | succ e ih =>
      intro a he hheap hsuf hcross
      rw [heapsortLoop, dif_neg (Nat.succ_ne_zero e)]
      simp only [Nat.add_sub_cancel]
      have hE : e + 1 + 1 = e + 2 := by omega
      rw [hE] at hheap hsuf hcross
      have h0len : 0 < a.length := by omega
      have helen : e + 1 < a.length := he
      have hblen : (swapL a 0 (e + 1)).length = a.length := by simp
      have hbperm := swapL_perm a (i := 0) (j := e + 1) h0len helen
      -- heap edges of the swapped range above the root
      have hbedge : ∀ p c, 0 + 1 ≤ p → c < e + 1 →
          (c = 2 * p + 1 ∨ c = 2 * p + 2) →
          comp (nth (swapL a 0 (e + 1)) p)
            (nth (swapL a 0 (e + 1)) c) = false := by
        intro p c hp hc hcc
        have hplt : p < e + 1 := by omega
        rw [nth_swapL_other (by omega) (by omega),
          nth_swapL_other (by omega) (by omega)]
        exact hheap p c (by omega) hcc
      obtain ⟨hs1, hs2, _, hs4, hs5, _⟩ :=
        sift_down_spec hswo (e + 1) (swapL a 0 (e + 1)) (e + 1) 0
          (by omega) (by omega) hbedge
      set c := sift_down comp (swapL a 0 (e + 1)) (e + 1) 0 with hcdef
      have hclen : c.length = a.length := by rw [hs2, hblen]
      -- the part from e+1 on is untouched by the sift
      have hdropc : c.drop (e + 1) = (swapL a 0 (e + 1)).drop (e + 1) := by
        apply ext_nth
        · simp [hclen]
        · intro k hk
          rw [nth_drop, nth_drop, hs4 (e + 1 + k) (by omega)]
      have hdropb : (swapL a 0 (e + 1)).drop (e + 1) =
          nth a 0 :: a.drop (e + 2) := by
        apply ext_nth
        · simp
          omega
        · intro k hk
          simp only [List.length_drop, hblen] at hk
          cases k with
          | zero =>
              rw [nth_drop, Nat.add_zero, nth_cons_zero,
                nth_swapL_right h0len helen]
          | succ k =>
              rw [nth_drop, nth_cons_succ, nth_drop]
              rw [nth_swapL_other (by omega) (by omega)]
              congr 1
              omega
      -- the prefix of the old range, as元素 membership
      have hmemtake : ∀ x ∈ c.take (e + 1), ∃ k, k < e + 2 ∧ nth a k = x := by
        intro x hx
        have hperm1 : (c.take (e + 1)).Perm ((swapL a 0 (e + 1)).take (e + 1)) :=
          take_perm_of_drop_eq hs1 hdropc
        have hx2 : x ∈ (swapL a 0 (e + 1)).take (e + 1) := hperm1.mem_iff.mp hx
        have hx3 : x ∈ (swapL a 0 (e + 1)).take (e + 2) := by
          have hsub : (swapL a 0 (e + 1)).take (e + 1) =
              ((swapL a 0 (e + 1)).take (e + 2)).take (e + 1) := by
            rw [List.take_take, Nat.min_eq_left (by omega)]
          rw [hsub] at hx2
          exact List.mem_of_mem_take hx2
        have hts : (swapL a 0 (e + 1)).take (e + 2) =
            swapL (a.take (e + 2)) 0 (e + 1) :=
          take_swapL (by omega) (by omega) (by omega)
        rw [hts] at hx3
        have hx4 : x ∈ a.take (e + 2) :=
          (swapL_perm (a.take (e + 2)) (by simp; omega)
            (by simp; omega)).mem_iff.mp hx3
        have hseg : seg a 0 (e + 2) = a.take (e + 2) := by
          simp [seg]
        rw [← hseg] at hx4
        obtain ⟨k, _, hk2, hk3⟩ := (mem_seg_iff (by omega) (by omega)).mp hx4
        exact ⟨k, hk2, hk3⟩
      have hrec := ih c (by omega) (fun p cc hc1 hc2 => hs5 p cc (by omega) hc1 hc2)
        ?suf ?cross
      case suf =>
        rw [hdropc, hdropb, PairwiseLe, List.pairwise_cons]
        constructor
        · intro y hy
          exact hcross (nth a 0) (nth_mem_take (by omega) (by omega)) y hy
        · exact hsuf
      case cross =>
        intro x hx y hy
        obtain ⟨k, hk1, hk2⟩ := hmemtake x hx
        rw [hdropc, hdropb] at hy
        rcases List.mem_cons.mp hy with rfl | hy'
        · rw [← hk2]
          exact root_max hswo hheap k hk1
        · have hxmem : x ∈ a.take (e + 2) := by
            rw [← hk2]
            exact nth_mem_take hk1 (by omega)
          exact hcross x hxmem y hy'
      exact ⟨hrec.1.trans (hs1.trans hbperm), hrec.2⟩

/-- Specification of `heapsort_range`: a sorted permutation of the range. -/
theorem heapsort_range_spec {comp : α → α → Bool} (hswo : IsSWO comp)
    (a : List α) :
    (heapsort_range comp a).Perm a ∧
      PairwiseLe comp (heapsort_range comp a) := by
  unfold heapsort_range
  split
  · rename_i hz
    rw [List.length_eq_zero] at hz
    subst hz
    exact ⟨List.Perm.refl [], List.Pairwise.nil⟩
  · rename_i hz
    obtain ⟨hh1, hh2, hh3⟩ := heapify_spec hswo a
    have hco : a.length - 1 + 1 = a.length := by omega
    have hrec := heapsortLoop_spec hswo (a.length - 1) (heapify comp a)
      (by omega) (by rw [hco]; exact hh3)
      (by rw [hco, ← hh2, List.drop_length]; exact List.Pairwise.nil)
      (by rw [hco, ← hh2, List.drop_length]; intro x _ y hy; cases hy)
    exact ⟨hrec.1.trans hh1, hrec.2⟩

end Heap

section Introsort

variable {α : Type} [Inhabited α]

/-- Threshold at or below which introsort hands sub-ranges to insertion
sort (`rei::INSERTION_THRESHOLD`). -/
def INSERTION_THRESHOLD : Nat := 20

/-- Depth factor of the introsort recursion budget
(`rei::INTROSORT_DEPTH_FACTOR`, a C++ `int`). -/
def INTROSORT_DEPTH_FACTOR : Int := 2

/-- Work frame of the iterative introsort driver: sub-range `[lo, hi)` and
the remaining depth budget (a C++ `int`). -/
structure Frame where
  lo : Nat
  hi : Nat
  depth : Int
deriving DecidableEq

/-- Size of the sub-range a frame owns. -/
def frameSize (f : Frame) : Nat := f.hi - f.lo

/-- Total size owned by a work stack. -/
def stackMeasure (stack : List Frame) : Nat := (stack.map frameSize).sum

/-- `partition_3way` run on the sub-range `[lo, hi)`, with the boundary
pair translated back to global positions. -/
def partitionSub (comp : α → α → Bool) (a : List α) (lo hi : Nat) :
    List α × Nat × Nat :=
  let r := partition_3way (seg a lo hi) comp
  (applySeg a lo hi r.1, lo + r.2.1, lo + r.2.2)

/-- `heapsort_range` run on the sub-range `[lo, hi)`. -/
def heapsortSub (comp : α → α → Bool) (a : List α) (lo hi : Nat) : List α :=
  applySeg a lo hi (heapsort_range comp (seg a lo hi))

/-- `insertion_sort` run on the sub-range `[lo, hi)`. -/
def insertionSub (comp : α → α → Bool) (a : List α) (lo hi : Nat) :
    List α :=
  applySeg a lo hi (insertion_sort comp (seg a lo hi))

/-- Inner `while` loop of `introsort_iterative`: one popped frame is
processed, pushing the smaller side of each partition and continuing with
the larger until the range is small, the budget runs out (heapsort), or
the loop guard fails.  The loop consumes at most `hi - lo` iterations, so
it is modelled with that much fuel; the fuel never runs out on the ranges
the driver passes in. -/
def innerLoop (comp : α → α → Bool) :
    Nat → List α → Nat → Nat → Int → List Frame →
      List α × Nat × Nat × List Frame
  | 0, a, lo, hi, _, acc => (a, lo, hi, acc)
  | fuel + 1, a, lo, hi, depth, acc =>
    if INSERTION_THRESHOLD < hi - lo then
      if depth = 0 then (heapsortSub comp a lo hi, lo, hi, acc)
      else if (partitionSub comp a lo hi).2.1 - lo <
          hi - (partitionSub comp a lo hi).2.2 then
        innerLoop comp fuel (partitionSub comp a lo hi).1
          (partitionSub comp a lo hi).2.2 hi (depth - 1)
          (if 1 < (partitionSub comp a lo hi).2.1 - lo then
            ⟨lo, (partitionSub comp a lo hi).2.1, depth - 1⟩ :: acc
          else acc)
      else
        innerLoop comp fuel (partitionSub comp a lo hi).1 lo
          (partitionSub comp a lo hi).2.1 (depth - 1)
          (if 1 < hi - (partitionSub comp a lo hi).2.2 then
            ⟨(partitionSub comp a lo hi).2.2, hi, depth - 1⟩ :: acc
          else acc)
    else (a, lo, hi, acc)

/-- Unconditional bounds of `partition_3way`: degenerate on the empty
range, otherwise a non-empty middle region inside the range. -/
theorem partition_3way_cases (comp : α → α → Bool) (a : List α) :
    (partition_3way a comp).1.length = a.length ∧
      (((partition_3way a comp).2.1 = 0 ∧ (partition_3way a comp).2.2 = 0) ∨
        ((partition_3way a comp).2.1 < (partition_3way a comp).2.2 ∧
          (partition_3way a comp).2.2 ≤ a.length)) := by
  by_cases hz : a.length = 0
  · unfold partition_3way
    rw [if_pos hz]
    exact ⟨rfl, Or.inl ⟨rfl, rfl⟩⟩
  · have : (partition_3way a comp).2.1 < (partition_3way a comp).2.2 ∧
        (partition_3way a comp).2.2 ≤ a.length ∧
        (partition_3way a comp).1.length = a.length :=
      partition_3way_bounds hz
    exact ⟨this.2.2, Or.inr ⟨this.1, this.2.1⟩⟩

/-- Unconditional shape of the sub-range partition boundaries. -/
theorem partitionSub_cases (comp : α → α → Bool) (a : List α) (lo hi : Nat) :
    lo ≤ (partitionSub comp a lo hi).2.1 ∧
      (((partitionSub comp a lo hi).2.1 = lo ∧
          (partitionSub comp a lo hi).2.2 = lo) ∨
        ((partitionSub comp a lo hi).2.1 < (partitionSub comp a lo hi).2.2 ∧
          (partitionSub comp a lo hi).2.2 ≤ lo + (hi - lo))) := by
  have hc := partition_3way_cases comp (seg a lo hi)
  have hlen : (seg a lo hi).length ≤ hi - lo := by
    simp [seg]
  have he1 : (partitionSub comp a lo hi).2.1 =
      lo + (partition_3way (seg a lo hi) comp).2.1 := rfl
  have he2 : (partitionSub comp a lo hi).2.2 =
      lo + (partition_3way (seg a lo hi) comp).2.2 := rfl
  rw [he1, he2]
  rcases hc.2 with ⟨h1, h2⟩ | ⟨h1, h2⟩
  · exact ⟨by omega, Or.inl ⟨by omega, by omega⟩⟩
  · exact ⟨by omega, Or.inr ⟨by omega, by omega⟩⟩

/-- The frames pushed by one run of the inner loop fit in `hi - lo`, with
room to spare as soon as anything is pushed. -/
theorem innerLoop_measure (comp : α → α → Bool) :
    ∀ (fuel : Nat) (a : List α) (lo hi : Nat) (depth : Int)
      (acc : List Frame),
      ∃ pushed, (innerLoop comp fuel a lo hi depth acc).2.2.2 =
          pushed ++ acc ∧
        (pushed = [] ∨ stackMeasure pushed + 1 ≤ hi - lo) := by
  intro fuel
  induction fuel with
  | zero =>
      intro a lo hi depth acc
      exact ⟨[], rfl, Or.inl rfl⟩
  | succ fuel ih =>
      intro a lo hi depth acc
      rw [innerLoop]
      by_cases hg : INSERTION_THRESHOLD < hi - lo
      · rw [if_pos hg]
        by_cases hd : depth = 0
        · rw [if_pos hd]
          exact ⟨[], rfl, Or.inl rfl⟩
        · rw [if_neg hd]
          have hpc := partitionSub_cases comp a lo hi
          by_cases hb : (partitionSub comp a lo hi).2.1 - lo <
              hi - (partitionSub comp a lo hi).2.2
          · rw [if_pos hb]
            by_cases hpush : 1 < (partitionSub comp a lo hi).2.1 - lo
            · rw [if_pos hpush]
              obtain ⟨pushed, hpe, hpm⟩ := ih (partitionSub comp a lo hi).1
                (partitionSub comp a lo hi).2.2 hi (depth - 1)
                (⟨lo, (partitionSub comp a lo hi).2.1, depth - 1⟩ :: acc)
              refine ⟨pushed ++
                [⟨lo, (partitionSub comp a lo hi).2.1, depth - 1⟩], ?_, ?_⟩
              · rw [hpe, List.append_assoc, List.singleton_append]
              · right
                rcases hpc.2 with ⟨h1, h2⟩ | ⟨h1, h2⟩
                · omega
                · have hms : stackMeasure (pushed ++
                      [⟨lo, (partitionSub comp a lo hi).2.1, depth - 1⟩]) =
                      stackMeasure pushed +
                        ((partitionSub comp a lo hi).2.1 - lo) := by
                    simp [stackMeasure, frameSize]
                  have h0 : stackMeasure ([] : List Frame) = 0 := rfl
                  rw [hms]
                  rcases hpm with rfl | hpm
                  · rw [h0]
                    omega
                  · omega
            · rw [if_neg hpush]
              obtain ⟨pushed, hpe, hpm⟩ := ih (partitionSub comp a lo hi).1
                (partitionSub comp a lo hi).2.2 hi (depth - 1) acc
              refine ⟨pushed, hpe, ?_⟩
              rcases hpm with rfl | hpm
              · exact Or.inl rfl
              · right
                rcases hpc.2 with ⟨h1, h2⟩ | ⟨h1, h2⟩ <;> omega
          · rw [if_neg hb]
            by_cases hpush : 1 < hi - (partitionSub comp a lo hi).2.2
            · rw [if_pos hpush]
              obtain ⟨pushed, hpe, hpm⟩ := ih (partitionSub comp a lo hi).1
                lo (partitionSub comp a lo hi).2.1 (depth - 1)
                (⟨(partitionSub comp a lo hi).2.2, hi, depth - 1⟩ :: acc)
              refine ⟨pushed ++
                [⟨(partitionSub comp a lo hi).2.2, hi, depth - 1⟩], ?_, ?_⟩
              · rw [hpe, List.append_assoc, List.singleton_append]
              · right
                rcases hpc.2 with ⟨h1, h2⟩ | ⟨h1, h2⟩
                · omega
                · have hms : stackMeasure (pushed ++
                      [⟨(partitionSub comp a lo hi).2.2, hi, depth - 1⟩]) =
                      stackMeasure pushed +
                        (hi - (partitionSub comp a lo hi).2.2) := by
                    simp [stackMeasure, frameSize]
                  have h0 : stackMeasure ([] : List Frame) = 0 := rfl
                  rw [hms]
                  rcases hpm with rfl | hpm
                  · rw [h0]
                    omega
                  · omega
            · rw [if_neg hpush]
              obtain ⟨pushed, hpe, hpm⟩ := ih (partitionSub comp a lo hi).1
                lo (partitionSub comp a lo hi).2.1 (depth - 1) acc
              refine ⟨pushed, hpe, ?_⟩
              rcases hpm with rfl | hpm
              · exact Or.inl rfl
              · right
                rcases hpc.2 with ⟨h1, h2⟩ | ⟨h1, h2⟩ <;> omega
      · rw [if_neg hg]
        exact ⟨[], rfl, Or.inl rfl⟩

/-- Outer loop of `introsort_iterative`: pop a frame, run the inner loop
on it (with the frame's own size as fuel), finish the residual small range
with insertion sort, and continue with the pushed frames on top of the
stack. -/
def outerLoop (comp : α → α → Bool) (stack : List Frame) (a : List α) :
    List α :=
  match stack with
  | [] => a
  | f :: rest =>
    let r := innerLoop comp (f.hi - f.lo) a f.lo f.hi f.depth []
    let a2 := if 1 < r.2.2.1 - r.2.1 then insertionSub comp r.1 r.2.1 r.2.2.1
      else r.1
    outerLoop comp (r.2.2.2 ++ rest) a2
termination_by (stackMeasure stack, stack.length)
decreasing_by
  obtain ⟨pushed, hpe, hpm⟩ := innerLoop_measure comp (f.hi - f.lo) a
    f.lo f.hi f.depth []
  rw [hpe, List.append_nil]
  have hsum : stackMeasure (pushed ++ rest) =
      stackMeasure pushed + stackMeasure rest := by
    simp [stackMeasure]
  have hold : stackMeasure (f :: rest) =
      (f.hi - f.lo) + stackMeasure rest := by
    simp [stackMeasure, frameSize]
  rcases hpm with rfl | hpm
  · simp only [List.nil_append]
    by_cases hz : f.hi - f.lo = 0
    · have hmeq : stackMeasure (f :: rest) = stackMeasure rest := by
        rw [hold]
        omega
      rw [hmeq]
      exact Prod.Lex.right _ (by simp)
    · exact Prod.Lex.left _ _ (by omega)
  · exact Prod.Lex.left _ _ (by omega)

/-- Model of `rei::introsort_iterative`: set the depth budget to
`INTROSORT_DEPTH_FACTOR * ⌈log₂ n⌉` and run the work-stack loop from the
single initial frame. -/
def introsort_iterative (comp : α → α → Bool) (a : List α) : List α :=
  if a.length = 0 then a
  else
    outerLoop comp
      [⟨0, a.length, INTROSORT_DEPTH_FACTOR * (Nat.clog 2 a.length : Int)⟩] a

/-- Model of `rei::rei_sort_impl`: optional sorted/reverse detection, the
small-range insertion-sort path, and the introsort path.  The range
returned by the scanner is threaded on. -/
def rei_sort_impl (a : List α) (comp : α → α → Bool)
    (detect : Bool) : List α :=
  if a.length ≤ 1 then a
  else if detect then
    let r := scan_sorted_and_reverse a comp
    if r.1 then r.2.2
    else if r.2.1 then r.2.2.reverse
    else if r.2.2.length ≤ INSERTION_THRESHOLD then
      insertion_sort comp r.2.2
    else introsort_iterative comp r.2.2
  else if a.length ≤ INSERTION_THRESHOLD then insertion_sort comp a
  else introsort_iterative comp a

/-- Model of the `rei::rei_sort` entry point (detection enabled by
default). -/
def rei_sort (a : List α) (comp : α → α → Bool)
    (detect : Bool := true) : List α :=
  rei_sort_impl a comp detect

/-- A position lies inside a frame's sub-range. -/
def WithinF (f : Frame) (k : Nat) : Prop := f.lo ≤ k ∧ k < f.hi

/-- Two frames own disjoint sub-ranges. -/
def DisjF (f g : Frame) : Prop := f.hi ≤ g.lo ∨ g.hi ≤ f.lo

theorem seg_split {a : List α} {lo mid hi : Nat} (h1 : lo ≤ mid)
    (h2 : mid ≤ hi) :
    seg a lo hi = seg a lo mid ++ seg a mid hi := by
  unfold seg
  have hco : hi - lo = (mid - lo) + (hi - mid) := by omega
  rw [hco, List.take_add]
  congr 1
  rw [List.drop_drop]
  have hco2 : lo + (mid - lo) = mid := by omega
  rw [hco2]

theorem seg_congr {u v : List α} {lo hi : Nat} (hu : hi ≤ u.length)
    (hv : hi ≤ v.length) (h : ∀ k, lo ≤ k → k < hi → nth u k = nth v k) :
    seg u lo hi = seg v lo hi := by
  rcases Nat.le_total lo hi with hlh | hlh
  · apply ext_nth
    · rw [length_seg hlh hu, length_seg hlh hv]
    · intro k hk
      rw [length_seg hlh hu] at hk
      rw [nth_seg (by omega) hu, nth_seg (by omega) hv]
      exact h (lo + k) (by omega) (by omega)
  · unfold seg
    have hz : hi - lo = 0 := by omega
    rw [hz, List.take_zero, List.take_zero]

theorem nth_mem_seg {u : List α} {lo hi q : Nat} (h1 : lo ≤ q) (h2 : q < hi)
    (h3 : hi ≤ u.length) : nth u q ∈ seg u lo hi :=
  (mem_seg_iff (by omega) h3).mpr ⟨q, h1, h2, rfl⟩

/-- Specification of `partitionSub` in global coordinates: the sub-range is
permuted into the three pivot regions, nothing else moves. -/
theorem partitionSub_spec {comp : α → α → Bool} (hswo : IsSWO comp)
    {a : List α} {lo hi : Nat} (hlo : lo < hi) (hhi : hi ≤ a.length) :
    (partitionSub comp a lo hi).1.length = a.length ∧
      (∀ k, k < lo ∨ hi ≤ k →
        nth (partitionSub comp a lo hi).1 k = nth a k) ∧
      (seg (partitionSub comp a lo hi).1 lo hi).Perm (seg a lo hi) ∧
      lo ≤ (partitionSub comp a lo hi).2.1 ∧
      (partitionSub comp a lo hi).2.1 < (partitionSub comp a lo hi).2.2 ∧
      (partitionSub comp a lo hi).2.2 ≤ hi ∧
      ∃ piv,
        (∀ k, lo ≤ k → k < (partitionSub comp a lo hi).2.1 →
          comp (nth (partitionSub comp a lo hi).1 k) piv = true) ∧
        (∀ k, (partitionSub comp a lo hi).2.1 ≤ k →
          k < (partitionSub comp a lo hi).2.2 →
          comp (nth (partitionSub comp a lo hi).1 k) piv = false ∧
            comp piv (nth (partitionSub comp a lo hi).1 k) = false) ∧
        (∀ k, (partitionSub comp a lo hi).2.2 ≤ k → k < hi →
          comp piv (nth (partitionSub comp a lo hi).1 k) = true) := by
  have hseglen : (seg a lo hi).length = hi - lo :=
    length_seg (by omega) hhi
  have hne : (seg a lo hi).length ≠ 0 := by omega
  rcases hres : partition_3way (seg a lo hi) comp with ⟨b, bd⟩
  rcases bd with ⟨lt, g⟩
  obtain ⟨hq1, hq2, hq3, hq4, hq5, hq6, hq7⟩ :=
    partition_3way_spec hswo hne hres
  have he0 : (partitionSub comp a lo hi).1 = applySeg a lo hi b := by
    unfold partitionSub
    rw [hres]
  have he1 : (partitionSub comp a lo hi).2.1 = lo + lt := by
    unfold partitionSub
    rw [hres]
  have he2 : (partitionSub comp a lo hi).2.2 = lo + g := by
    unfold partitionSub
    rw [hres]
  rw [he0, he1, he2]
  have hblen : b.length = hi - lo := by rw [hq2, hseglen]
  refine ⟨length_applySeg (by omega) hhi hblen, ?_, ?_, by omega, by omega,
    by omega, ?_⟩
  · intro k hk
    rcases hk with hk | hk
    · exact nth_applySeg_left hk (by omega)
    · exact nth_applySeg_right hk (by omega) hhi hblen
  · rw [seg_applySeg (by omega) hhi hblen]
    exact hq1
  · refine ⟨nth (seg a lo hi) (median_of_three (seg a lo hi) 0
      ((seg a lo hi).length / 2) ((seg a lo hi).length - 1) comp),
      ?_, ?_, ?_⟩
    · intro k hk1 hk2
      rw [nth_applySeg_mid hk1 (by omega) hhi hblen]
      exact hq5 (k - lo) (by omega)
    · intro k hk1 hk2
      rw [nth_applySeg_mid (by omega) (by omega) hhi hblen]
      exact hq6 (k - lo) (by omega) (by omega)
    · intro k hk1 hk2
      rw [nth_applySeg_mid (by omega) hk2 hhi hblen]
      exact hq7 (k - lo) (by omega) (by omega)

/-- An element below the pivot precedes one equivalent to it. -/
theorem IsSWO.cross_low_mid {α : Type} {comp : α → α → Bool}
    (h : IsSWO comp) {x y piv : α} (hx : comp x piv = true)
    (hy : comp y piv = false) : comp y x = false := by
  cases hcc : comp y x with
  | false => rfl
  | true =>
      have := h.trans y x piv hcc hx
      rw [this] at hy
      exact absurd hy (by simp)

/-- An element below the pivot precedes one above it. -/
theorem IsSWO.cross_low_high {α : Type} {comp : α → α → Bool}
    (h : IsSWO comp) {x y piv : α} (hx : comp x piv = true)
    (hy : comp piv y = true) : comp y x = false := by
  cases hcc : comp y x with
  | false => rfl
  | true =>
      have h1 := h.trans y x piv hcc hx
      have h2 := h.trans piv y piv hy h1
      rw [h.irrefl piv] at h2
      exact absurd h2 (by simp)

/-- An element equivalent to the pivot precedes one above it. -/
theorem IsSWO.cross_mid_high {α : Type} {comp : α → α → Bool}
    (h : IsSWO comp) {x y piv : α} (hx : comp piv x = false)
    (hy : comp piv y = true) : comp y x = false := by
  cases hcc : comp y x with
  | false => rfl
  | true =>
      have h1 := h.lt_of_lt_of_le hcc hx
      have h2 := h.trans piv y piv hy h1
      rw [h.irrefl piv] at h2
      exact absurd h2 (by simp)

/-- Master invariant of the inner introsort loop: the processed sub-range
is permuted in place; the pushed frames are disjoint sub-ranges of size at
least two inside it; and every pair of positions not inside a single
pushed frame or the residual small range is already ordered. -/
theorem innerLoop_spec {comp : α → α → Bool} (hswo : IsSWO comp) :
    ∀ (fuel : Nat) (a b : List α) (lo hi lo2 hi2 : Nat) (depth : Int)
      (acc out : List Frame),
      hi - lo ≤ fuel → lo ≤ hi → hi ≤ a.length →
      innerLoop comp fuel a lo hi depth acc = (b, lo2, hi2, out) →
      ∃ pushed, out = pushed ++ acc ∧
        b.length = a.length ∧
        (∀ k, k < lo ∨ hi ≤ k → nth b k = nth a k) ∧
        (seg b lo hi).Perm (seg a lo hi) ∧
        lo ≤ lo2 ∧ lo2 ≤ hi2 ∧ hi2 ≤ hi ∧
        (∀ f ∈ pushed, lo ≤ f.lo ∧ f.lo + 1 < f.hi ∧ f.hi ≤ hi ∧
          (0 ≤ depth → 0 ≤ f.depth)) ∧
        pushed.Pairwise DisjF ∧
        (∀ f ∈ pushed, f.hi ≤ lo2 ∨ hi2 ≤ f.lo) ∧
        (∀ p q, lo ≤ p → p < q → q < hi →
          (∀ f ∈ pushed, ¬(WithinF f p ∧ WithinF f q)) →
          ¬(lo2 ≤ p ∧ q < hi2) →
          comp (nth b q) (nth b p) = false) := by
  intro fuel
  induction fuel with
  | zero =>
      intro a b lo hi lo2 hi2 depth acc out hfuel hlohi hhi hres
      rw [innerLoop] at hres
      obtain ⟨rfl, rfl, rfl, rfl⟩ : a = b ∧ lo = lo2 ∧ hi = hi2 ∧
          acc = out := by
        injection hres with h1 h2
        injection h2 with h2 h3
        injection h3 with h3 h4
        exact ⟨h1, h2, h3, h4⟩
      exact ⟨[], rfl, rfl, fun k _ => rfl, List.Perm.refl _, Nat.le_refl _,
        hlohi, Nat.le_refl _, fun f hf => absurd hf (List.not_mem_nil f),
        List.Pairwise.nil, fun f hf => absurd hf (List.not_mem_nil f),
        fun p q hp hpq hq _ hres2 => absurd ⟨hp, hq⟩ hres2⟩
  | succ fuel ih =>
      intro a b lo hi lo2 hi2 depth acc out hfuel hlohi hhi hres
      have h20 : INSERTION_THRESHOLD = 20 := rfl
      rw [innerLoop] at hres
      by_cases hg : INSERTION_THRESHOLD < hi - lo
      case neg =>
        rw [if_neg hg] at hres
        obtain ⟨rfl, rfl, rfl, rfl⟩ : a = b ∧ lo = lo2 ∧ hi = hi2 ∧
            acc = out := by
          injection hres with h1 h2
          injection h2 with h2 h3
          injection h3 with h3 h4
          exact ⟨h1, h2, h3, h4⟩
        exact ⟨[], rfl, rfl, fun k _ => rfl, List.Perm.refl _, Nat.le_refl _,
          hlohi, Nat.le_refl _, fun f hf => absurd hf (List.not_mem_nil f),
          List.Pairwise.nil, fun f hf => absurd hf (List.not_mem_nil f),
          fun p q hp hpq hq _ hres2 => absurd ⟨hp, hq⟩ hres2⟩
      case pos =>
      rw [if_pos hg] at hres
      have hlolt : lo < hi := by omega
      by_cases hd : depth = 0
      case pos =>
        rw [if_pos hd] at hres
        obtain ⟨rfl, rfl, rfl, rfl⟩ : heapsortSub comp a lo hi = b ∧
            lo = lo2 ∧ hi = hi2 ∧ acc = out := by
          injection hres with h1 h2
          injection h2 with h2 h3
          injection h3 with h3 h4
          exact ⟨h1, h2, h3, h4⟩
        have hhs := heapsort_range_spec hswo (seg a lo hi)
        have hhlen : (heapsort_range comp (seg a lo hi)).length = hi - lo := by
          rw [hhs.1.length_eq, length_seg (by omega) hhi]
        refine ⟨[], rfl, ?_, ?_, ?_, Nat.le_refl _, hlohi, Nat.le_refl _,
          fun f hf => absurd hf (List.not_mem_nil f), List.Pairwise.nil,
          fun f hf => absurd hf (List.not_mem_nil f),
          fun p q hp hpq hq _ hres2 => absurd ⟨hp, hq⟩ hres2⟩
        · exact length_applySeg (by omega) hhi hhlen
        · intro k hk
          rcases hk with hk | hk
          · exact nth_applySeg_left hk (by omega)
          · exact nth_applySeg_right hk (by omega) hhi hhlen
        · rw [heapsortSub, seg_applySeg (by omega) hhi hhlen]
          exact hhs.1
      case neg =>
      rw [if_neg hd] at hres
      obtain ⟨hp1, hp2, hp3, hp4, hp5, hp6, piv, hlow, hmid, hhigh⟩ :=
        partitionSub_spec hswo hlolt hhi
      set r1 := (partitionSub comp a lo hi).1 with hr1def
      set lt := (partitionSub comp a lo hi).2.1 with hltdef
      set gt := (partitionSub comp a lo hi).2.2 with hgtdef
      have hr1hi : hi ≤ r1.length := by omega
      by_cases hb : lt - lo < hi - gt
      case pos =>
        rw [if_pos hb] at hres
        by_cases hpush : 1 < lt - lo
        case pos =>
          rw [if_pos hpush] at hres
          obtain ⟨pushed, hq1, hq2, hq3, hq4, hq5, hq6, hq7, hq8, hq9, hq10,
            hq11⟩ := ih r1 b gt hi lo2 hi2 (depth - 1)
            (⟨lo, lt, depth - 1⟩ :: acc) out (by omega) (by omega) hr1hi hres
          have hblen : b.length = a.length := by omega
          refine ⟨pushed ++ [⟨lo, lt, depth - 1⟩], ?_, hblen, ?_, ?_,
            by omega, hq6, hq7, ?_, ?_, ?_, ?_⟩
          · rw [hq1, List.append_assoc, List.singleton_append]
          · intro k hk
            rcases hk with hk | hk
            · rw [hq3 k (Or.inl (by omega)), hp2 k (Or.inl hk)]
            · rw [hq3 k (Or.inr hk), hp2 k (Or.inr hk)]
          · rw [seg_split (a := b) (show lo ≤ gt by omega) (show gt ≤ hi by omega)]
            have h41 : seg b lo gt = seg r1 lo gt :=
              seg_congr (by omega) (by omega)
                (fun k hk1 hk2 => hq3 k (Or.inl hk2))
            rw [h41]
            refine List.Perm.trans (List.Perm.append_left _ hq4) ?_
            rw [← seg_split (by omega) (by omega)]
            exact hp3
          · intro f hf
            rcases List.mem_append.mp hf with hf | hf
            · obtain ⟨hf1, hf2, hf3, hf4⟩ := hq8 f hf
              exact ⟨by omega, hf2, hf3, fun hdep => hf4 (by omega)⟩
            · rw [List.mem_singleton.mp hf]
              exact ⟨Nat.le_refl lo, show lo + 1 < lt by omega,
                show lt ≤ hi by omega,
                fun hdep => show (0 : Int) ≤ depth - 1 by omega⟩
          · rw [List.pairwise_append]
            refine ⟨hq9, List.pairwise_singleton _ _, ?_⟩
            intro f hf g hg
            rw [List.mem_singleton.mp hg]
            exact Or.inr (show lt ≤ f.lo by have := (hq8 f hf).1; omega)
          · intro f hf
            rcases List.mem_append.mp hf with hf | hf
            · exact hq10 f hf
            · rw [List.mem_singleton.mp hf]
              exact Or.inl (show lt ≤ lo2 by omega)
          · intro p q hp hpq hq hfr hres2
            have hfr' : ∀ f ∈ pushed, ¬(WithinF f p ∧ WithinF f q) :=
              fun f hf => hfr f (List.mem_append_left _ hf)
            have hfrn : ¬(WithinF ⟨lo, lt, depth - 1⟩ p ∧
                WithinF ⟨lo, lt, depth - 1⟩ q) :=
              hfr _ (List.mem_append_right _ (List.mem_singleton_self _))
            rcases Nat.lt_or_ge p gt with hplt | hpge
            · have hvp : nth b p = nth r1 p := hq3 p (Or.inl hplt)
              rcases Nat.lt_or_ge q gt with hqlt | hqge
              · rw [hvp, hq3 q (Or.inl hqlt)]
                rcases Nat.lt_or_ge p lt with hpl | hpl
                · rcases Nat.lt_or_ge q lt with hql | hql
                  · exact absurd ⟨⟨hp, hpl⟩, ⟨show lo ≤ q by omega, hql⟩⟩ hfrn
                  · exact hswo.cross_low_mid (hlow p hp hpl)
                      (hmid q hql hqlt).1
                · exact hswo.le_trans (hmid p hpl hplt).2
                    (hmid q (by omega) hqlt).1
              · obtain ⟨k, hk1, hk2, hk3⟩ : ∃ k, gt ≤ k ∧ k < hi ∧
                    nth b q = nth r1 k := by
                  have hm1 : nth b q ∈ seg b gt hi :=
                    nth_mem_seg hqge hq (by omega)
                  have hm2 : nth b q ∈ seg r1 gt hi := hq4.mem_iff.mp hm1
                  obtain ⟨k, hk1, hk2, hk3⟩ :=
                    (mem_seg_iff (by omega) (by omega)).mp hm2
                  exact ⟨k, hk1, hk2, hk3.symm⟩
                rw [hk3, hvp]
                rcases Nat.lt_or_ge p lt with hpl | hpl
                · exact hswo.cross_low_high (hlow p hp hpl) (hhigh k hk1 hk2)
                · exact hswo.cross_mid_high (hmid p hpl hplt).2
                    (hhigh k hk1 hk2)
            · exact hq11 p q hpge hpq hq hfr' hres2
        case neg =>
          rw [if_neg hpush] at hres
          obtain ⟨pushed, hq1, hq2, hq3, hq4, hq5, hq6, hq7, hq8, hq9, hq10,
            hq11⟩ := ih r1 b gt hi lo2 hi2 (depth - 1) acc out
            (by omega) (by omega) hr1hi hres
          have hblen : b.length = a.length := by omega
          refine ⟨pushed, hq1, hblen, ?_, ?_, by omega, hq6, hq7, ?_, hq9,
            hq10, ?_⟩
          · intro k hk
            rcases hk with hk | hk
            · rw [hq3 k (Or.inl (by omega)), hp2 k (Or.inl hk)]
            · rw [hq3 k (Or.inr hk), hp2 k (Or.inr hk)]
          · rw [seg_split (a := b) (show lo ≤ gt by omega) (show gt ≤ hi by omega)]
            have h41 : seg b lo gt = seg r1 lo gt :=
              seg_congr (by omega) (by omega)
                (fun k hk1 hk2 => hq3 k (Or.inl hk2))
            rw [h41]
            refine List.Perm.trans (List.Perm.append_left _ hq4) ?_
            rw [← seg_split (by omega) (by omega)]
            exact hp3
          · intro f hf
            obtain ⟨hf1, hf2, hf3, hf4⟩ := hq8 f hf
            exact ⟨by omega, hf2, hf3, fun hdep => hf4 (by omega)⟩
          · intro p q hp hpq hq hfr hres2
            rcases Nat.lt_or_ge p gt with hplt | hpge
            · have hvp : nth b p = nth r1 p := hq3 p (Or.inl hplt)
              rcases Nat.lt_or_ge q gt with hqlt | hqge
              · rw [hvp, hq3 q (Or.inl hqlt)]
                rcases Nat.lt_or_ge p lt with hpl | hpl
                · rcases Nat.lt_or_ge q lt with hql | hql
                  · omega
                  · exact hswo.cross_low_mid (hlow p hp hpl)
                      (hmid q hql hqlt).1
                · exact hswo.le_trans (hmid p hpl hplt).2
                    (hmid q (by omega) hqlt).1
              · obtain ⟨k, hk1, hk2, hk3⟩ : ∃ k, gt ≤ k ∧ k < hi ∧
                    nth b q = nth r1 k := by
                  have hm1 : nth b q ∈ seg b gt hi :=
                    nth_mem_seg hqge hq (by omega)
                  have hm2 : nth b q ∈ seg r1 gt hi := hq4.mem_iff.mp hm1
                  obtain ⟨k, hk1, hk2, hk3⟩ :=
                    (mem_seg_iff (by omega) (by omega)).mp hm2
                  exact ⟨k, hk1, hk2, hk3.symm⟩
                rw [hk3, hvp]
                rcases Nat.lt_or_ge p lt with hpl | hpl
                · exact hswo.cross_low_high (hlow p hp hpl) (hhigh k hk1 hk2)
                · exact hswo.cross_mid_high (hmid p hpl hplt).2
                    (hhigh k hk1 hk2)
            · exact hq11 p q hpge hpq hq hfr hres2
      case neg =>
        rw [if_neg hb] at hres
        by_cases hpush : 1 < hi - gt
        case pos =>
          rw [if_pos hpush] at hres
          obtain ⟨pushed, hq1, hq2, hq3, hq4, hq5, hq6, hq7, hq8, hq9, hq10,
            hq11⟩ := ih r1 b lo lt lo2 hi2 (depth - 1)
            (⟨gt, hi, depth - 1⟩ :: acc) out (by omega) (by omega)
            (by omega) hres
          have hblen : b.length = a.length := by omega
          refine ⟨pushed ++ [⟨gt, hi, depth - 1⟩], ?_, hblen, ?_, ?_,
            hq5, hq6, by omega, ?_, ?_, ?_, ?_⟩
          · rw [hq1, List.append_assoc, List.singleton_append]
          · intro k hk
            rcases hk with hk | hk
            · rw [hq3 k (Or.inl hk), hp2 k (Or.inl hk)]
            · rw [hq3 k (Or.inr (by omega)), hp2 k (Or.inr hk)]
          · rw [seg_split (a := b) (show lo ≤ lt by omega) (show lt ≤ hi by omega)]
            have h41 : seg b lt hi = seg r1 lt hi :=
              seg_congr (by omega) (by omega)
                (fun k hk1 hk2 => hq3 k (Or.inr hk1))
            rw [h41]
            refine List.Perm.trans (List.Perm.append_right _ hq4) ?_
            rw [← seg_split (by omega) (by omega)]
            exact hp3
          · intro f hf
            rcases List.mem_append.mp hf with hf | hf
            · obtain ⟨hf1, hf2, hf3, hf4⟩ := hq8 f hf
              exact ⟨hf1, hf2, by omega, fun hdep => hf4 (by omega)⟩
            · rw [List.mem_singleton.mp hf]
              exact ⟨show lo ≤ gt by omega, show gt + 1 < hi by omega,
                Nat.le_refl hi,
                fun hdep => show (0 : Int) ≤ depth - 1 by omega⟩
          · rw [List.pairwise_append]
            refine ⟨hq9, List.pairwise_singleton _ _, ?_⟩
            intro f hf g hg
            rw [List.mem_singleton.mp hg]
            exact Or.inl (show f.hi ≤ gt by have := (hq8 f hf).2.2.1; omega)
          · intro f hf
            rcases List.mem_append.mp hf with hf | hf
            · exact hq10 f hf
            · rw [List.mem_singleton.mp hf]
              exact Or.inr (show hi2 ≤ gt by omega)
          · intro p q hp hpq hq hfr hres2
            have hfr' : ∀ f ∈ pushed, ¬(WithinF f p ∧ WithinF f q) :=
              fun f hf => hfr f (List.mem_append_left _ hf)
            have hfrn : ¬(WithinF ⟨gt, hi, depth - 1⟩ p ∧
                WithinF ⟨gt, hi, depth - 1⟩ q) :=
              hfr _ (List.mem_append_right _ (List.mem_singleton_self _))
            rcases Nat.lt_or_ge q lt with hqlt | hqge
            · exact hq11 p q hp hpq hqlt hfr' hres2
            · have hvq : nth b q = nth r1 q := hq3 q (Or.inr hqge)
              rcases Nat.lt_or_ge p lt with hplt | hpge
              · obtain ⟨k, hk1, hk2, hk3⟩ : ∃ k, lo ≤ k ∧ k < lt ∧
                    nth b p = nth r1 k := by
                  have hm1 : nth b p ∈ seg b lo lt :=
                    nth_mem_seg hp hplt (by omega)
                  have hm2 : nth b p ∈ seg r1 lo lt := hq4.mem_iff.mp hm1
                  obtain ⟨k, hk1, hk2, hk3⟩ :=
                    (mem_seg_iff (by omega) (by omega)).mp hm2
                  exact ⟨k, hk1, hk2, hk3.symm⟩
                rw [hvq, hk3]
                rcases Nat.lt_or_ge q gt with hqg | hqg
                · exact hswo.cross_low_mid (hlow k hk1 hk2)
                    (hmid q hqge hqg).1
                · exact hswo.cross_low_high (hlow k hk1 hk2) (hhigh q hqg hq)
              · rw [hvq, hq3 p (Or.inr hpge)]
                rcases Nat.lt_or_ge p gt with hpg | hpg
                · rcases Nat.lt_or_ge q gt with hqg | hqg
                  · exact hswo.le_trans (hmid p hpge hpg).2
                      (hmid q (by omega) hqg).1
                  · exact hswo.cross_mid_high (hmid p hpge hpg).2
                      (hhigh q hqg hq)
                · exact absurd ⟨⟨hpg, show p < hi by omega⟩,
                    ⟨show gt ≤ q by omega, hq⟩⟩ hfrn
        case neg =>
          rw [if_neg hpush] at hres
          obtain ⟨pushed, hq1, hq2, hq3, hq4, hq5, hq6, hq7, hq8, hq9, hq10,
            hq11⟩ := ih r1 b lo lt lo2 hi2 (depth - 1) acc out
            (by omega) (by omega) (by omega) hres
          have hblen : b.length = a.length := by omega
          refine ⟨pushed, hq1, hblen, ?_, ?_, hq5, hq6, by omega, ?_, hq9,
            hq10, ?_⟩
          · intro k hk
            rcases hk with hk | hk
            · rw [hq3 k (Or.inl hk), hp2 k (Or.inl hk)]
            · rw [hq3 k (Or.inr (by omega)), hp2 k (Or.inr hk)]
          · rw [seg_split (a := b) (show lo ≤ lt by omega) (show lt ≤ hi by omega)]
            have h41 : seg b lt hi = seg r1 lt hi :=
              seg_congr (by omega) (by omega)
                (fun k hk1 hk2 => hq3 k (Or.inr hk1))
            rw [h41]
            refine List.Perm.trans (List.Perm.append_right _ hq4) ?_
            rw [← seg_split (by omega) (by omega)]
            exact hp3
          · intro f hf
            obtain ⟨hf1, hf2, hf3, hf4⟩ := hq8 f hf
            exact ⟨hf1, hf2, by omega, fun hdep => hf4 (by omega)⟩
          · intro p q hp hpq hq hfr hres2
            rcases Nat.lt_or_ge q lt with hqlt | hqge
            · exact hq11 p q hp hpq hqlt hfr hres2
            · have hvq : nth b q = nth r1 q := hq3 q (Or.inr hqge)
              rcases Nat.lt_or_ge p lt with hplt | hpge
              · obtain ⟨k, hk1, hk2, hk3⟩ : ∃ k, lo ≤ k ∧ k < lt ∧
                    nth b p = nth r1 k := by
                  have hm1 : nth b p ∈ seg b lo lt :=
                    nth_mem_seg hp hplt (by omega)
                  have hm2 : nth b p ∈ seg r1 lo lt := hq4.mem_iff.mp hm1
                  obtain ⟨k, hk1, hk2, hk3⟩ :=
                    (mem_seg_iff (by omega) (by omega)).mp hm2
                  exact ⟨k, hk1, hk2, hk3.symm⟩
                rw [hvq, hk3]
                rcases Nat.lt_or_ge q gt with hqg | hqg
                · exact hswo.cross_low_mid (hlow k hk1 hk2)
                    (hmid q hqge hqg).1
                · exact hswo.cross_low_high (hlow k hk1 hk2) (hhigh q hqg hq)
              · rw [hvq, hq3 p (Or.inr hpge)]
                rcases Nat.lt_or_ge p gt with hpg | hpg
                · rcases Nat.lt_or_ge q gt with hqg | hqg
                  · exact hswo.le_trans (hmid p hpge hpg).2
                      (hmid q (by omega) hqg).1
                  · exact hswo.cross_mid_high (hmid p hpge hpg).2
                      (hhigh q hqg hq)
                · omega

theorem pairwiseLe_of_nth {comp : α → α → Bool} {a : List α}
    (h : ∀ p q, p < q → q < a.length → comp (nth a q) (nth a p) = false) :
    PairwiseLe comp a := by
  rw [PairwiseLe, List.pairwise_iff_get]
  intro i j hij
  have := h i j hij j.isLt
  rw [nth_eq_getElem (by omega), nth_eq_getElem (by omega)] at this
  simpa [List.get_eq_getElem] using this

/-- A range whose segment `[lo, hi)` was permuted and whose outside was
left alone is a permutation of the original. -/
theorem perm_of_outside_eq {a b : List α} {lo hi : Nat}
    (hlen : b.length = a.length) (hlo : lo ≤ hi) (hhi : hi ≤ a.length)
    (hout : ∀ k, k < lo ∨ hi ≤ k → nth b k = nth a k)
    (hseg : (seg b lo hi).Perm (seg a lo hi)) : b.Perm a := by
  have hb : b = applySeg a lo hi (seg b lo hi) := by
    have hsl : (seg b lo hi).length = hi - lo :=
      length_seg hlo (by omega)
    apply ext_nth
    · rw [length_applySeg hlo hhi hsl, hlen]
    · intro k hk
      rw [hlen] at hk
      rcases Nat.lt_or_ge k lo with hklo | hklo
      · rw [nth_applySeg_left hklo (by omega), hout k (Or.inl hklo)]
      · rcases Nat.lt_or_ge k hi with hkhi | hkhi
        · rw [nth_applySeg_mid hklo hkhi hhi hsl,
            nth_seg (by omega) (by omega)]
          congr 1
          omega
        · rw [nth_applySeg_right hkhi hlo hhi hsl, hout k (Or.inr hkhi)]
  rw [hb]
  exact applySeg_perm hlo hhi hseg

/-- Master invariant of the outer introsort loop: a stack of disjoint
frames, each of size at least two, on a range in which every pair of
positions not owned by one common frame is already ordered, is turned into
a sorted permutation of the range. -/
theorem outerLoop_master {comp : α → α → Bool} (hswo : IsSWO comp) :
    ∀ (n : Nat) (stack : List Frame) (a : List α), stackMeasure stack ≤ n →
      (∀ f ∈ stack, f.hi ≤ a.length) →
      (∀ f ∈ stack, f.lo + 1 < f.hi) →
      stack.Pairwise DisjF →
      (∀ p q, p < q → q < a.length →
        (∀ f ∈ stack, ¬(WithinF f p ∧ WithinF f q)) →
        comp (nth a q) (nth a p) = false) →
      ((outerLoop comp stack a).Perm a ∧
        PairwiseLe comp (outerLoop comp stack a)) := by
  intro n
  induction n with
  | zero =>
      intro stack a hmu hbound hsize hdisj hcross
      match stack with
      | [] =>
          rw [outerLoop]
          exact ⟨List.Perm.refl a, pairwiseLe_of_nth
            (fun p q hpq hq => hcross p q hpq hq
              (fun f hf => absurd hf (List.not_mem_nil f)))⟩
      | f :: rest =>
          exfalso
          have h1 := hsize f (List.mem_cons_self f rest)
          have h2 : stackMeasure (f :: rest) =
              frameSize f + stackMeasure rest := by
            simp [stackMeasure]
          simp only [frameSize] at h2
          omega
  | succ n ih =>
      intro stack a hmu hbound hsize hdisj hcross
      match stack with
      | [] =>
          rw [outerLoop]
          exact ⟨List.Perm.refl a, pairwiseLe_of_nth
            (fun p q hpq hq => hcross p q hpq hq
              (fun f hf => absurd hf (List.not_mem_nil f)))⟩
      | f :: rest =>
          rcases hres : innerLoop comp (f.hi - f.lo) a f.lo f.hi f.depth []
            with ⟨b, rr⟩
          rcases rr with ⟨lo2, rr2⟩
          rcases rr2 with ⟨hi2, out⟩
          have heq : outerLoop comp (f :: rest) a =
              outerLoop comp (out ++ rest)
                (if 1 < hi2 - lo2 then insertionSub comp b lo2 hi2 else b) := by
            rw [outerLoop, hres]
          rw [heq]
          have hflh := hsize f (List.mem_cons_self f rest)
          have hfhi := hbound f (List.mem_cons_self f rest)
          obtain ⟨pushed, hq1, hq2, hq3, hq4, hq5, hq6, hq7, hq8, hq9, hq10,
            hq11⟩ := innerLoop_spec hswo (f.hi - f.lo) a b f.lo f.hi lo2 hi2
            f.depth [] out (Nat.le_refl _) (by omega) hfhi hres
          rw [List.append_nil] at hq1
          subst hq1
          obtain ⟨pushed2, hpe2, hpm2⟩ := innerLoop_measure comp
            (f.hi - f.lo) a f.lo f.hi f.depth []
          rw [hres] at hpe2
          have hpe3 : out = pushed2 ++ [] := hpe2
          rw [List.append_nil] at hpe3
          subst hpe3
          have hmub : stackMeasure out ≤ f.hi - f.lo - 1 := by
            rcases hpm2 with rfl | hpm2
            · have h0 : stackMeasure ([] : List Frame) = 0 := rfl
              omega
            · omega
          -- facts about the array after the optional insertion sort
          set a2 := if 1 < hi2 - lo2 then insertionSub comp b lo2 hi2 else b
            with ha2def
          have hsl : (seg b lo2 hi2).length = hi2 - lo2 :=
            length_seg (by omega) (by omega)
          have hisl : (insertion_sort comp (seg b lo2 hi2)).length =
              hi2 - lo2 := by
            rw [(insertion_sort_perm hswo (seg b lo2 hi2)).length_eq, hsl]
          have ha2len : a2.length = a.length := by
            rw [ha2def]
            split
            · rw [insertionSub, length_applySeg (by omega) (by omega) hisl]
              exact hq2
            · exact hq2
          have ha2out : ∀ k, k < lo2 ∨ hi2 ≤ k → nth a2 k = nth b k := by
            intro k hk
            rw [ha2def]
            split
            · rcases hk with hk | hk
              · exact nth_applySeg_left hk (by omega)
              · exact nth_applySeg_right hk (by omega) (by omega) hisl
            · rfl
          have ha2seg : (seg a2 lo2 hi2).Perm (seg b lo2 hi2) := by
            rw [ha2def]
            split
            · rw [insertionSub, seg_applySeg (by omega) (by omega) hisl]
              exact insertion_sort_perm hswo (seg b lo2 hi2)
            · exact List.Perm.refl _
          have ha2res : ∀ p q, lo2 ≤ p → p < q → q < hi2 →
              comp (nth a2 q) (nth a2 p) = false := by
            intro p q hp hpq hq
            rw [ha2def]
            split
            · rename_i hins
              rw [insertionSub, nth_applySeg_mid (by omega) (by omega)
                  (by omega) hisl,
                nth_applySeg_mid hp (by omega) (by omega) hisl]
              have hsor := sortedL_pairwise hswo
                (insertion_sort_sorted hswo (seg b lo2 hi2))
              exact pairwiseLe_nth hsor (by omega) (by omega)
            · rename_i hins
              omega
          -- value correspondence within the processed frame
          have hval : ∀ x, f.lo ≤ x → x < f.hi → ∃ k, f.lo ≤ k ∧ k < f.hi ∧
              ((lo2 ≤ x ∧ x < hi2) → (lo2 ≤ k ∧ k < hi2)) ∧
              (¬(lo2 ≤ x ∧ x < hi2) → k = x) ∧ nth a2 x = nth b k := by
            intro x hx1 hx2
            by_cases hxr : lo2 ≤ x ∧ x < hi2
            · have hm1 : nth a2 x ∈ seg a2 lo2 hi2 :=
                nth_mem_seg hxr.1 hxr.2 (by omega)
              have hm2 : nth a2 x ∈ seg b lo2 hi2 := ha2seg.mem_iff.mp hm1
              obtain ⟨k, hk1, hk2, hk3⟩ :=
                (mem_seg_iff (by omega) (by omega)).mp hm2
              exact ⟨k, by omega, by omega, fun _ => ⟨hk1, hk2⟩,
                fun hcon => absurd hxr hcon, hk3.symm⟩
            · refine ⟨x, hx1, hx2, fun hcon => absurd hcon hxr,
                fun _ => rfl, ?_⟩
              rcases Nat.lt_or_ge x lo2 with hxl | hxl
              · exact ha2out x (Or.inl hxl)
              · rcases Nat.lt_or_ge x hi2 with hxh | hxh
                · exact absurd ⟨hxl, hxh⟩ hxr
                · exact ha2out x (Or.inr hxh)
          -- full-frame segment permutation of a2 against the original a
          have hsegframe : (seg a2 f.lo f.hi).Perm (seg a f.lo f.hi) := by
            have h1 : seg a2 f.lo lo2 = seg b f.lo lo2 :=
              seg_congr (by omega) (by omega)
                (fun k hk1 hk2 => ha2out k (Or.inl hk2))
            have h2 : seg a2 hi2 f.hi = seg b hi2 f.hi :=
              seg_congr (by omega) (by omega)
                (fun k hk1 hk2 => ha2out k (Or.inr hk1))
            rw [seg_split (a := a2) (show f.lo ≤ lo2 by omega)
                (show lo2 ≤ f.hi by omega),
              seg_split (a := a2) (show lo2 ≤ hi2 by omega)
                (show hi2 ≤ f.hi by omega), h1, h2]
            refine List.Perm.trans (List.Perm.append (List.Perm.refl _)
              (List.Perm.append ha2seg (List.Perm.refl _))) ?_
            rw [← seg_split (a := b) (by omega) (by omega),
              ← seg_split (a := b) (by omega) (by omega)]
            exact hq4
          have ha2outer : ∀ k, k < f.lo ∨ f.hi ≤ k → nth a2 k = nth a k := by
            intro k hk
            have h1 : nth a2 k = nth b k := by
              rcases hk with hk | hk
              · exact ha2out k (Or.inl (by omega))
              · exact ha2out k (Or.inr (by omega))
            rw [h1]
            rcases hk with hk | hk
            · exact hq3 k (Or.inl hk)
            · exact hq3 k (Or.inr hk)
          have ha2perm : a2.Perm a :=
            perm_of_outside_eq ha2len (by omega) hfhi ha2outer hsegframe
          -- apply the induction hypothesis to the new stack
          have hmunew : stackMeasure (out ++ rest) ≤ n := by
            have h1 : stackMeasure (out ++ rest) =
                stackMeasure out + stackMeasure rest := by
              simp [stackMeasure]
            have h2 : stackMeasure (f :: rest) =
                frameSize f + stackMeasure rest := by
              simp [stackMeasure]
            simp only [frameSize] at h2
            omega
          have hrest := List.pairwise_cons.mp hdisj
          have hih := ih (out ++ rest) a2 hmunew ?bound ?size ?disj ?cross
          case bound =>
            intro g hg
            rcases List.mem_append.mp hg with hg | hg
            · have := (hq8 g hg).2.2.1
              omega
            · have := hbound g (List.mem_cons_of_mem f hg)
              omega
          case size =>
            intro g hg
            rcases List.mem_append.mp hg with hg | hg
            · exact (hq8 g hg).2.1
            · exact hsize g (List.mem_cons_of_mem f hg)
          case disj =>
            rw [List.pairwise_append]
            refine ⟨hq9, hrest.2, ?_⟩
            intro g hg g2 hg2
            obtain ⟨hga, hgb, hgc, _⟩ := hq8 g hg
            rcases hrest.1 g2 hg2 with hfd | hfd
            · exact Or.inl (by omega)
            · exact Or.inr (by omega)
          case cross =>
            intro p q hpq hq hfr
            rw [ha2len] at hq
            have hfr1 : ∀ g ∈ out, ¬(WithinF g p ∧ WithinF g q) :=
              fun g hg => hfr g (List.mem_append_left _ hg)
            have hfr2 : ∀ g ∈ rest, ¬(WithinF g p ∧ WithinF g q) :=
              fun g hg => hfr g (List.mem_append_right _ hg)
            by_cases hpin : f.lo ≤ p ∧ p < f.hi
            · by_cases hqin : f.lo ≤ q ∧ q < f.hi
              · -- both inside the processed frame
                by_cases hpres : lo2 ≤ p ∧ q < hi2
                · -- both in the residual range: it is now sorted
                  exact ha2res p q hpres.1 hpq hpres.2
                · obtain ⟨kp, hkp1, hkp2, hkp3, hkp4, hkp5⟩ :=
                    hval p hpin.1 hpin.2
                  obtain ⟨kq, hkq1, hkq2, hkq3, hkq4, hkq5⟩ :=
                    hval q hqin.1 hqin.2
                  rw [hkp5, hkq5]
                  by_cases hpr : lo2 ≤ p ∧ p < hi2
                  · -- p in residual, q not (else the case above applies)
                    have hqnr : ¬(lo2 ≤ q ∧ q < hi2) := by omega
                    have hkqq := hkq4 hqnr
                    rw [hkqq]
                    have hkpin := hkp3 hpr
                    refine hq11 kp q (by omega) (by omega) hqin.2 ?_
                      (by omega)
                    intro g hg
                    rcases hq10 g hg with hgd | hgd <;>
                      (rintro ⟨⟨h1, h2⟩, h3, h4⟩; omega)
                  · have hkpp := hkp4 hpr
                    rw [hkpp]
                    by_cases hqr : lo2 ≤ q ∧ q < hi2
                    · have hkqin := hkq3 hqr
                      refine hq11 p kq hpin.1 (by omega) (by omega) ?_
                        (by omega)
                      intro g hg
                      rcases hq10 g hg with hgd | hgd <;>
                        (rintro ⟨⟨h1, h2⟩, h3, h4⟩; omega)
                    · have hkqq := hkq4 hqr
                      rw [hkqq]
                      exact hq11 p q hpin.1 hpq hqin.2 hfr1 (by omega)
              · -- p inside, q outside (above the frame)
                have hqout : f.hi ≤ q := by omega
                have hmem : nth a2 p ∈ seg a2 f.lo f.hi :=
                  nth_mem_seg hpin.1 hpin.2 (by omega)
                have hmem2 : nth a2 p ∈ seg a f.lo f.hi :=
                  hsegframe.mem_iff.mp hmem
                obtain ⟨k, hk1, hk2, hk3⟩ :=
                  (mem_seg_iff (by omega) (by omega)).mp hmem2
                rw [← hk3, ha2outer q (Or.inr hqout)]
                refine hcross k q (by omega) hq ?_
                intro g hg
                rcases List.mem_cons.mp hg with rfl | hg
                · rintro ⟨⟨h1, h2⟩, h3, h4⟩
                  omega
                · rcases hrest.1 g hg with hgd | hgd <;>
                    · rintro ⟨⟨h1, h2⟩, h3, h4⟩
                      omega
            · by_cases hqin : f.lo ≤ q ∧ q < f.hi
              · -- q inside, p outside (below the frame)
                have hpout : p < f.lo := by omega
                have hmem : nth a2 q ∈ seg a2 f.lo f.hi :=
                  nth_mem_seg hqin.1 hqin.2 (by omega)
                have hmem2 : nth a2 q ∈ seg a f.lo f.hi :=
                  hsegframe.mem_iff.mp hmem
                obtain ⟨k, hk1, hk2, hk3⟩ :=
                  (mem_seg_iff (by omega) (by omega)).mp hmem2
                rw [← hk3, ha2outer p (Or.inl hpout)]
                refine hcross p k (by omega) (by omega) ?_
                intro g hg
                rcases List.mem_cons.mp hg with rfl | hg
                · rintro ⟨⟨h1, h2⟩, h3, h4⟩
                  omega
                · rcases hrest.1 g hg with hgd | hgd <;>
                    · rintro ⟨⟨h1, h2⟩, h3, h4⟩
                      omega
              · -- both outside the frame
                have hp' : p < f.lo ∨ f.hi ≤ p := by omega
                have hq' : q < f.lo ∨ f.hi ≤ q := by omega
                rw [ha2outer p hp', ha2outer q hq']
                refine hcross p q hpq hq ?_
                intro g hg
                rcases List.mem_cons.mp hg with rfl | hg
                · rintro ⟨⟨h1, h2⟩, h3, h4⟩
                  omega
                · exact hfr2 g hg
          exact ⟨hih.1.trans ha2perm, hih.2⟩

theorem nth_reverse {a : List α} {j : Nat} (hj : j < a.length) :
    nth a.reverse j = nth a (a.length - 1 - j) := by
  rw [nth_eq_getElem (by rw [List.length_reverse]; exact hj),
    nth_eq_getElem (by omega)]
  exact List.getElem_reverse _

/-- `introsort_iterative` on a range of at least two elements sorts it: the
single initial frame covers the whole range, so the outer-loop invariant is
trivially established. -/
theorem introsort_master {comp : α → α → Bool} (hswo : IsSWO comp)
    {a : List α} (ha : 1 < a.length) :
    (introsort_iterative comp a).Perm a ∧
      PairwiseLe comp (introsort_iterative comp a) := by
  rw [introsort_iterative, if_neg (by omega)]
  refine outerLoop_master hswo
    (stackMeasure [⟨0, a.length,
      INTROSORT_DEPTH_FACTOR * (Nat.clog 2 a.length : Int)⟩]) _ a
    (Nat.le_refl _) ?_ ?_ ?_ ?_
  · intro g hg
    rw [List.mem_singleton] at hg
    subst hg
    exact Nat.le_refl _
  · intro g hg
    rw [List.mem_singleton] at hg
    subst hg
    simpa using ha
  · exact List.pairwise_singleton _ _
  · intro p q hpq hq hfr
    exact absurd ⟨⟨Nat.zero_le p, show p < a.length by omega⟩,
        ⟨Nat.zero_le q, hq⟩⟩
      (hfr _ (List.mem_singleton.mpr rfl))

theorem sortedL_of_pairwise {comp : α → α → Bool} {l : List α}
    (h : PairwiseLe comp l) : SortedL comp l :=
  List.Pairwise.chain' h

/-- Unfolding of `rei_sort_impl` after discharging the scanner's frame
effect (the range it returns is the input). -/
theorem rei_sort_impl_eq (a : List α) (comp : α → α → Bool)
    (detect : Bool) :
    rei_sort_impl a comp detect =
      if a.length ≤ 1 then a
      else if detect then
        if (scan_sorted_and_reverse a comp).1 then a
        else if (scan_sorted_and_reverse a comp).2.1 then a.reverse
        else if a.length ≤ INSERTION_THRESHOLD then insertion_sort comp a
        else introsort_iterative comp a
      else if a.length ≤ INSERTION_THRESHOLD then insertion_sort comp a
      else introsort_iterative comp a := by
  rw [rei_sort_impl]
  simp only [scan_range_eq]

/-- `rei_sort_impl` permutes its input on every path. -/
theorem rei_sort_impl_perm {comp : α → α → Bool} (hswo : IsSWO comp)
    (a : List α) (detect : Bool) : (rei_sort_impl a comp detect).Perm a := by
  rw [rei_sort_impl_eq]
  split_ifs with h1 h2 h3 h4 h5 h6
  · exact List.Perm.refl a
  · exact List.Perm.refl a
  · exact List.reverse_perm a
  · exact insertion_sort_perm hswo a
  · exact (introsort_master hswo (by omega)).1
  · exact insertion_sort_perm hswo a
  · exact (introsort_master hswo (by omega)).1

/-- `rei_sort_impl` sorts its input on every path. -/
theorem rei_sort_impl_sorted {comp : α → α → Bool} (hswo : IsSWO comp)
    (a : List α) (detect : Bool) :
    SortedL comp (rei_sort_impl a comp detect) := by
  rw [rei_sort_impl_eq]
  split_ifs with h1 h2 h3 h4 h5 h6
  · rw [sortedL_iff_nth]
    intro j hj
    omega
  · rw [sortedL_iff_nth]
    exact fun j hj => (scan_sorted_iff a comp).mp h3 j hj
  · have hmono := (scan_reverse_iff a comp).mp h4
    rw [sortedL_iff_nth]
    intro j hj
    rw [List.length_reverse] at hj
    rw [nth_reverse (by omega), nth_reverse (by omega)]
    have hk : a.length - 1 - (j + 1) = a.length - 2 - j := by omega
    have hk2 : a.length - 1 - j = (a.length - 2 - j) + 1 := by omega
    rw [hk, hk2]
    exact hmono _ (by omega)
  · exact insertion_sort_sorted hswo a
  · exact sortedL_of_pairwise (introsort_master hswo (by omega)).2
  · exact insertion_sort_sorted hswo a
  · exact sortedL_of_pairwise (introsort_master hswo (by omega)).2

end Introsort

section ByKey

variable {V K : Type} [Inhabited V] [Inhabited K]

/-- Decoration loop of `rei_sort_by_key`: one pass over the range building
the `(key, original index)` pairs.  The second component records the
argument of every key invocation in call order, so the number of key calls
is observable in the model (the comparator handed to the sort and the
undecoration loop never invoke the key projection). -/
def decorateLoop (key : V → K) : List V → Nat → List (K × Nat) × List V
  | [], _ => ([], [])
  | v :: t, idx =>
    ((key v, idx) :: (decorateLoop key t (idx + 1)).1,
      v :: (decorateLoop key t (idx + 1)).2)

/-- The decorated array of `(key, original index)` pairs. -/
def decorate (key : V → K) (a : List V) : List (K × Nat) :=
  (decorateLoop key a 0).1

/-- The arguments the key projection is applied to over a whole
`rei_sort_by_key` call. -/
def keyCallArgs (key : V → K) (a : List V) : List V :=
  (decorateLoop key a 0).2

/-- The comparator `rei_sort_by_key` hands to `rei_sort` over the decorated
pairs: compare the key components. -/
def pairComp (comp : K → K → Bool) (p q : K × Nat) : Bool := comp p.1 q.1

/-- Overwrite the home (index) field of `d[i]`. -/
def setHome (d : List (K × Nat)) (i h : Nat) : List (K × Nat) :=
  d.set i ((nth d i).1, h)

/-- Inner `while (true)` loop of the cycle-following undecoration: follow
`source = decorated[current].second` until it returns to the cycle start
`i`, moving elements backwards along the cycle and marking the visited
slots.  The loop is modelled with fuel (the callers pass the range length,
which is never exhausted when the home fields are a permutation). -/
def cycleInner (i : Nat) : Nat → List V → List (K × Nat) → Nat →
    List V × List (K × Nat) × Nat
  | 0, a, d, current => (a, d, current)
  | fuel + 1, a, d, current =>
    if (nth d current).2 = i then (a, d, current)
    else
      cycleInner i fuel (a.set current (nth a ((nth d current).2)))
        (setHome d current current) ((nth d current).2)

/-- Body of the undecoration `for` loop for one outer index `i`: skip if
the slot is already in place, otherwise rotate the cycle through `i` and
write the saved value into the final hole. -/
def undecorateStep (s : List V × List (K × Nat)) (i : Nat) :
    List V × List (K × Nat) :=
  if (nth s.2 i).2 = i then s
  else
    ((cycleInner i s.2.length s.1 s.2 i).1.set
        (cycleInner i s.2.length s.1 s.2 i).2.2 (nth s.1 i),
      setHome (cycleInner i s.2.length s.1 s.2 i).2.1
        (cycleInner i s.2.length s.1 s.2 i).2.2
        (cycleInner i s.2.length s.1 s.2 i).2.2)

/-- The outer undecoration loop: `k` remaining iterations starting at
index `i`. -/
def undecorateAux : Nat → Nat → List V × List (K × Nat) →
    List V × List (K × Nat)
  | 0, _, s => s
  | k + 1, i, s => undecorateAux k (i + 1) (undecorateStep s i)

/-- In-place cycle-decomposition undecoration of `rei_sort_by_key`. -/
def undecorate (a : List V) (d : List (K × Nat)) : List V :=
  (undecorateAux d.length 0 (a, d)).1

/-- Model of `rei::rei_sort_by_key`: decorate with `(key, index)` pairs,
sort them by key with `rei_sort` (detection enabled by default), then
undecorate in place. -/
def rei_sort_by_key (a : List V) (key : V → K) (comp : K → K → Bool) :
    List V :=
  undecorate a (rei_sort (decorate key a) (pairComp comp) true)

/-- The naive reference undecoration from the specification: write each
element into a fresh buffer indexed by the home field, i.e. the buffer
holds `a[d[i].home]` at position `i`. -/
def undecorateNaive (a : List V) (d : List (K × Nat)) : List V :=
  d.map (fun p => nth a p.2)

theorem decorateLoop_args (key : V → K) :
    ∀ (a : List V) (idx : Nat), (decorateLoop key a idx).2 = a := by
  intro a
  induction a with
  | nil => intro idx; rfl
  | cons v t ih =>
      intro idx
      rw [decorateLoop, ih]

theorem decorateLoop_homes (key : V → K) :
    ∀ (a : List V) (idx : Nat),
      ((decorateLoop key a idx).1).map (fun p => p.2) =
        List.range' idx a.length := by
  intro a
  induction a with
  | nil => intro idx; rfl
  | cons v t ih =>
      intro idx
      rw [decorateLoop, List.map_cons, ih, List.length_cons,
        List.range'_succ]

theorem decorate_homes (key : V → K) (a : List V) :
    (decorate key a).map (fun p => p.2) = List.range a.length := by
  rw [decorate, decorateLoop_homes, List.range_eq_range']

theorem decorate_length (key : V → K) (a : List V) :
    (decorate key a).length = a.length := by
  have h := decorate_homes key a
  have h2 := congrArg List.length h
  rw [List.length_map, List.length_range] at h2
  exact h2

theorem mem_decorateLoop {key : V → K} :
    ∀ {a : List V} {idx : Nat} {p : K × Nat},
      p ∈ (decorateLoop key a idx).1 →
      ∃ m, m < a.length ∧ p = (key (nth a m), idx + m) := by
  intro a
  induction a with
  | nil => intro idx p hp; exact absurd hp (List.not_mem_nil p)
  | cons v t ih =>
      intro idx p hp
      rw [decorateLoop, List.mem_cons] at hp
      rcases hp with rfl | hp
      · exact ⟨0, by simp, by rw [nth_cons_zero, Nat.add_zero]⟩
      · obtain ⟨m, hm, hpe⟩ := ih hp
        refine ⟨m + 1, by simp; omega, ?_⟩
        rw [hpe, nth_cons_succ]
        have : idx + 1 + m = idx + (m + 1) := by omega
        rw [this]

theorem mem_decorate {key : V → K} {a : List V} {p : K × Nat}
    (hp : p ∈ decorate key a) :
    ∃ m, m < a.length ∧ p = (key (nth a m), m) := by
  obtain ⟨m, hm, hpe⟩ := mem_decorateLoop hp
  rw [Nat.zero_add] at hpe
  exact ⟨m, hm, hpe⟩

theorem cycleInner_spec {A : List V} {D : List (K × Nat)}
    (hAD : A.length = D.length)
    (hb : ∀ j, j < D.length → (nth D j).2 < D.length)
    (hinj : ∀ j1 j2, j1 < D.length → j2 < D.length →
      (nth D j1).2 = (nth D j2).2 → j1 = j2)
    {i : Nat} :
    ∀ (fuel : Nat) (vs : List Nat) (a : List V) (d : List (K × Nat))
      (current : Nat),
      a.length = A.length → d.length = D.length →
      D.length ≤ fuel + vs.length →
      (vs ++ [current]).Nodup →
      i ∈ vs ++ [current] →
      (∀ v ∈ vs ++ [current], v < D.length) →
      (∀ v ∈ vs ++ [current], v ≠ i → ∃ u ∈ vs, (nth D u).2 = v) →
      (∀ v ∈ vs, (nth D v).2 ∈ vs ++ [current]) →
      (∀ j, j < D.length → j ∉ vs → nth d j = nth D j ∧
        nth a j = nth A j) →
      (∀ v ∈ vs, (nth d v).2 = v ∧ nth a v = nth A ((nth D v).2)) →
      ∃ S c a' d', cycleInner i fuel a d current = (a', d', c) ∧
        a'.length = A.length ∧ d'.length = D.length ∧
        i ∈ S ++ [c] ∧ (S ++ [c]).Nodup ∧
        (∀ v ∈ S ++ [c], v < D.length) ∧
        (∀ v ∈ S, (nth D v).2 ∈ S ++ [c]) ∧
        (nth D c).2 = i ∧
        (∀ j, j < D.length → j ∉ S → nth d' j = nth D j ∧
          nth a' j = nth A j) ∧
        (∀ v ∈ S, (nth d' v).2 = v ∧ nth a' v = nth A ((nth D v).2)) := by
  intro fuel
  induction fuel with
  | zero =>
      intro vs a d current hal hdl hfuel hnd hmem hlt hpred hclose hfresh
        hvis
      exfalso
      have hsub : (vs ++ [current]) ⊆ List.range D.length := by
        intro x hx
        rw [List.mem_range]
        exact hlt x hx
      have hle := (List.subperm_of_subset hnd hsub).length_le
      rw [List.length_append, List.length_range,
        List.length_singleton] at hle
      omega
  | succ fuel ih =>
      intro vs a d current hal hdl hfuel hnd hmem hlt hpred hclose hfresh
        hvis
      have hcur : current < D.length := hlt current (by simp)
      have hcnv : current ∉ vs := fun hc =>
        (List.nodup_append.mp hnd).2.2 hc (List.mem_singleton.mpr rfl)
      have hdc : nth d current = nth D current :=
        (hfresh current hcur hcnv).1
      rw [cycleInner]
      by_cases hbreak : (nth d current).2 = i
      · rw [if_pos hbreak]
        rw [hdc] at hbreak
        exact ⟨vs, current, a, d, rfl, hal, hdl, hmem, hnd, hlt, hclose,
          hbreak, hfresh, hvis⟩
      · rw [if_neg hbreak, hdc]
        rw [hdc] at hbreak
        have hsrc_lt : (nth D current).2 < D.length := hb current hcur
        have hsrc_nv : (nth D current).2 ∉ vs ++ [current] := by
          intro hsv
          rcases List.mem_append.mp hsv with h | h
          · obtain ⟨u, hu, hue⟩ := hpred (nth D current).2
              (List.mem_append_left _ h) hbreak
            have := hinj u current (hlt u (List.mem_append_left _ hu))
              hcur hue
            subst this
            exact hcnv hu
          · rw [List.mem_singleton] at h
            by_cases hci : current = i
            · exact hbreak (h.trans hci)
            · obtain ⟨u, hu, hue⟩ := hpred current (by simp) hci
              have := hinj u current (hlt u (List.mem_append_left _ hu))
                hcur (by rw [hue, h])
              subst this
              exact hcnv hu
        refine ih (vs ++ [current]) (a.set current (nth a (nth D current).2))
          (setHome d current current) (nth D current).2 ?_ ?_ ?_ ?_ ?_ ?_ ?_
          ?_ ?_ ?_
        · rw [List.length_set]; exact hal
        · rw [setHome, List.length_set]; exact hdl
        · rw [List.length_append, List.length_singleton]; omega
        · rw [List.nodup_append]
          refine ⟨hnd, List.nodup_singleton _, ?_⟩
          intro x hx hxs
          rw [List.mem_singleton] at hxs
          subst hxs
          exact hsrc_nv hx
        · exact List.mem_append_left _ hmem
        · intro v hv
          rcases List.mem_append.mp hv with h | h
          · exact hlt v h
          · rw [List.mem_singleton] at h
            subst h
            exact hsrc_lt
        · intro v hv hvne
          rcases List.mem_append.mp hv with h | h
          · obtain ⟨u, hu, hue⟩ := hpred v h hvne
            exact ⟨u, List.mem_append_left _ hu, hue⟩
          · rw [List.mem_singleton] at h
            subst h
            exact ⟨current, by simp, rfl⟩
        · intro v hv
          rcases List.mem_append.mp hv with h | h
          · exact List.mem_append_left _ (hclose v h)
          · rw [List.mem_singleton] at h
            subst h
            exact List.mem_append_right _ (by simp)
        · intro j hj hjn
          rw [List.mem_append, List.mem_singleton] at hjn
          push_neg at hjn
          constructor
          · rw [setHome, nth_set_ne _ (Ne.symm hjn.2)]
            exact (hfresh j hj hjn.1).1
          · rw [nth_set_ne _ (Ne.symm hjn.2)]
            exact (hfresh j hj hjn.1).2
        · intro v hv
          rcases List.mem_append.mp hv with h | h
          · have hvc : current ≠ v := fun hc => hcnv (by rw [hc]; exact h)
            constructor
            · rw [setHome, nth_set_ne _ hvc]
              exact (hvis v h).1
            · rw [nth_set_ne _ hvc]
              exact (hvis v h).2
          · rw [List.mem_singleton] at h
            rw [h]
            constructor
            · rw [setHome, nth_set_self _ (by omega)]
            · rw [nth_set_self _ (by omega)]
              have hsnv : (nth D current).2 ∉ vs := fun hc =>
                hsrc_nv (List.mem_append_left _ hc)
              exact (hfresh (nth D current).2 hsrc_lt hsnv).2

/-- One outer undecoration iteration: either the slot is already in
place, or a complete cycle `S` through `i` is rotated into place (marked,
holding the elements its home fields named) while every slot outside `S`
is untouched. -/
theorem undecorateStep_spec {A : List V} {D : List (K × Nat)}
    (hAD : A.length = D.length)
    (hb : ∀ j, j < D.length → (nth D j).2 < D.length)
    (hinj : ∀ j1 j2, j1 < D.length → j2 < D.length →
      (nth D j1).2 = (nth D j2).2 → j1 = j2)
    {i : Nat} (hi : i < D.length) :
    ∃ S : List Nat, S.Nodup ∧ (∀ j ∈ S, j < D.length) ∧
      (∀ j ∈ S, (nth D j).2 ∈ S) ∧
      ((nth D i).2 = i ∨ i ∈ S) ∧
      (undecorateStep (A, D) i).1.length = A.length ∧
      (undecorateStep (A, D) i).2.length = D.length ∧
      (∀ j, j < D.length → j ∉ S →
        nth (undecorateStep (A, D) i).1 j = nth A j ∧
        nth (undecorateStep (A, D) i).2 j = nth D j) ∧
      (∀ j ∈ S, nth (undecorateStep (A, D) i).1 j = nth A ((nth D j).2) ∧
        (nth (undecorateStep (A, D) i).2 j).2 = j) := by
  have he : undecorateStep (A, D) i =
      (if (nth D i).2 = i then (A, D) else
        ((cycleInner i D.length A D i).1.set
            (cycleInner i D.length A D i).2.2 (nth A i),
          setHome (cycleInner i D.length A D i).2.1
            (cycleInner i D.length A D i).2.2
            (cycleInner i D.length A D i).2.2)) := rfl
  by_cases hskip : (nth D i).2 = i
  · rw [he, if_pos hskip]
    exact ⟨[], List.nodup_nil, fun j hj => absurd hj (List.not_mem_nil j),
      fun j hj => absurd hj (List.not_mem_nil j), Or.inl hskip, rfl, rfl,
      fun j hj _ => ⟨rfl, rfl⟩, fun j hj => absurd hj (List.not_mem_nil j)⟩
  · obtain ⟨S, c, a', d', heq, hal, hdl, hmem, hnd, hlt, hclose, hcD,
      hfresh, hvis⟩ :=
      cycleInner_spec hAD hb hinj (i := i) D.length [] A D i rfl rfl
        (by simp) (by simp) (by simp)
        (by
          intro v hv
          rw [List.nil_append, List.mem_singleton] at hv
          rw [hv]
          exact hi)
        (by
          intro v hv hvne
          rw [List.nil_append, List.mem_singleton] at hv
          exact absurd hv hvne)
        (fun v hv => absurd hv (List.not_mem_nil v))
        (fun j hj _ => ⟨rfl, rfl⟩)
        (fun v hv => absurd hv (List.not_mem_nil v))
    have he2 : undecorateStep (A, D) i =
        (a'.set c (nth A i), setHome d' c c) := by
      rw [he, if_neg hskip, heq]
    have hcS : c ∉ S := fun hc =>
      (List.nodup_append.mp hnd).2.2 hc (List.mem_singleton.mpr rfl)
    have hcn : c < D.length := hlt c (List.mem_append_right _ (by simp))
    refine ⟨S ++ [c], hnd, hlt, ?_, Or.inr hmem, ?_, ?_, ?_, ?_⟩
    · intro j hj
      rcases List.mem_append.mp hj with h | h
      · exact hclose j h
      · rw [List.mem_singleton] at h
        rw [h, hcD]
        exact hmem
    · rw [he2, List.length_set]
      exact hal
    · rw [he2, setHome, List.length_set]
      exact hdl
    · intro j hj hjn
      rw [List.mem_append, List.mem_singleton] at hjn
      push_neg at hjn
      rw [he2]
      constructor
      · rw [nth_set_ne _ (Ne.symm hjn.2)]
        exact (hfresh j hj hjn.1).2
      · rw [setHome, nth_set_ne _ (Ne.symm hjn.2)]
        exact (hfresh j hj hjn.1).1
    · intro j hj
      rw [he2]
      rcases List.mem_append.mp hj with h | h
      · have hjc : c ≠ j := fun hc => hcS (hc ▸ h)
        constructor
        · rw [nth_set_ne _ hjc]
          exact (hvis j h).2
        · rw [setHome, nth_set_ne _ hjc]
          exact (hvis j h).1
      · rw [List.mem_singleton] at h
        rw [h]
        constructor
        · rw [nth_set_self _ (by omega), hcD]
        · rw [setHome, nth_set_self _ (by omega)]

/-- A nodup list closed under an injective map is mapped onto itself, so
membership of an image forces membership of the preimage's argument. -/
theorem surj_on_of_closed {S : List Nat} {g : Nat → Nat} (hnd : S.Nodup)
    (hcl : ∀ j ∈ S, g j ∈ S)
    (hinjS : ∀ j1 ∈ S, ∀ j2 ∈ S, g j1 = g j2 → j1 = j2) :
    ∀ y ∈ S, ∃ j ∈ S, g j = y := by
  have hmap : (S.map g).Nodup := List.Nodup.map_on hinjS hnd
  have hsub : (S.map g) ⊆ S := by
    intro x hx
    rw [List.mem_map] at hx
    obtain ⟨j, hj, hje⟩ := hx
    rw [← hje]
    exact hcl j hj
  have hperm := (List.subperm_of_subset hmap hsub).perm_of_length_le
    (le_of_eq (List.length_map S g).symm)
  intro y hy
  have hym : y ∈ S.map g := hperm.mem_iff.mpr hy
  rw [List.mem_map] at hym
  obtain ⟨j, hj, hje⟩ := hym
  exact ⟨j, hj, hje⟩

/-- Master invariant of the outer undecoration loop: with home fields
bounded and injective and positions below `i` already in place, the
remaining iterations put `a[d[j].home]` at every position `j`. -/
theorem undecorateAux_spec :
    ∀ (k i : Nat) (a : List V) (d : List (K × Nat)),
      a.length = d.length →
      i + k = d.length →
      (∀ j, j < d.length → (nth d j).2 < d.length) →
      (∀ j1 j2, j1 < d.length → j2 < d.length →
        (nth d j1).2 = (nth d j2).2 → j1 = j2) →
      (∀ j, j < i → (nth d j).2 = j) →
      (undecorateAux k i (a, d)).1.length = a.length ∧
        ∀ j, j < d.length →
          nth (undecorateAux k i (a, d)).1 j = nth a ((nth d j).2) := by
  intro k
  induction k with
  | zero =>
      intro i a d hlen hik hbnd hinj hpref
      rw [undecorateAux]
      refine ⟨rfl, ?_⟩
      intro j hj
      rw [hpref j (by omega)]
  | succ k ih =>
      intro i a d hlen hik hbnd hinj hpref
      obtain ⟨S, hnd, hSlt, hScl, hSi, hlen1, hlen2, hout, hin⟩ :=
        undecorateStep_spec hlen hbnd hinj (i := i) (by omega)
      rw [undecorateAux]
      rcases hstep : undecorateStep (a, d) i with ⟨a2, d2⟩
      rw [hstep] at hlen1 hlen2 hout hin
      have hl1 : a2.length = a.length := hlen1
      have hl2 : d2.length = d.length := hlen2
      have hout2 : ∀ j, j < d.length → j ∉ S →
          nth a2 j = nth a j ∧ nth d2 j = nth d j := hout
      have hin2 : ∀ j ∈ S, nth a2 j = nth a ((nth d j).2) ∧
          (nth d2 j).2 = j := hin
      have hback : ∀ x, x < d.length → (nth d x).2 ∈ S → x ∈ S := by
        intro x hx hgx
        obtain ⟨j, hj, hje⟩ := surj_on_of_closed hnd hScl
          (fun j1 h1 j2 h2 he => hinj j1 j2 (hSlt j1 h1) (hSlt j2 h2) he)
          ((nth d x).2) hgx
        rwa [hinj j x (hSlt j hj) hx hje] at hj
      have hbnd2 : ∀ j, j < d2.length → (nth d2 j).2 < d2.length := by
        intro j hj
        rw [hl2] at hj
        rw [hl2]
        by_cases hjS : j ∈ S
        · rw [(hin2 j hjS).2]
          exact hSlt j hjS
        · rw [(hout2 j hj hjS).2]
          exact hbnd j hj
      have hinj2 : ∀ j1 j2, j1 < d2.length → j2 < d2.length →
          (nth d2 j1).2 = (nth d2 j2).2 → j1 = j2 := by
        intro j1 j2 h1 h2 he
        rw [hl2] at h1 h2
        by_cases hS1 : j1 ∈ S <;> by_cases hS2 : j2 ∈ S
        · rw [(hin2 j1 hS1).2, (hin2 j2 hS2).2] at he
          exact he
        · rw [(hin2 j1 hS1).2, (hout2 j2 h2 hS2).2] at he
          exact absurd (hback j2 h2 (by rw [← he]; exact hS1)) hS2
        · rw [(hout2 j1 h1 hS1).2, (hin2 j2 hS2).2] at he
          exact absurd (hback j1 h1 (by rw [he]; exact hS2)) hS1
        · rw [(hout2 j1 h1 hS1).2, (hout2 j2 h2 hS2).2] at he
          exact hinj j1 j2 h1 h2 he
      have hpref2 : ∀ j, j < i + 1 → (nth d2 j).2 = j := by
        intro j hj
        by_cases hjS : j ∈ S
        · exact (hin2 j hjS).2
        · rcases Nat.lt_or_ge j i with hji | hji
          · rw [(hout2 j (by omega) hjS).2]
            exact hpref j hji
          · have hje : j = i := by omega
            subst hje
            rcases hSi with hd | hiS
            · rw [(hout2 j (by omega) hjS).2]
              exact hd
            · exact absurd hiS hjS
      obtain ⟨ihl, ihp⟩ := ih (i + 1) a2 d2
        (by rw [hl1, hl2]; exact hlen) (by omega) hbnd2 hinj2 hpref2
      constructor
      · rw [ihl]
        exact hl1
      · intro j hj
        rw [ihp j (by rw [hl2]; exact hj)]
        by_cases hjS : j ∈ S
        · rw [(hin2 j hjS).2]
          exact (hin2 j hjS).1
        · rw [(hout2 j hj hjS).2]
          have hgj : (nth d j).2 ∉ S := fun hc => hjS (hback j hj hc)
          exact (hout2 ((nth d j).2) (hbnd j hj) hgj).1

/-- Full undecoration: with a bounded injective home map, position `j`
ends up holding `a[d[j].home]`. -/
theorem undecorate_spec {a : List V} {d : List (K × Nat)}
    (hlen : a.length = d.length)
    (hbnd : ∀ j, j < d.length → (nth d j).2 < d.length)
    (hinj : ∀ j1 j2, j1 < d.length → j2 < d.length →
      (nth d j1).2 = (nth d j2).2 → j1 = j2) :
    (undecorate a d).length = a.length ∧
      ∀ j, j < d.length → nth (undecorate a d) j = nth a ((nth d j).2) := by
  rw [undecorate]
  exact undecorateAux_spec d.length 0 a d hlen (by omega) hbnd hinj
    (fun j hj => absurd hj (Nat.not_lt_zero j))

/-- Home fields that are a permutation of `0..n-1` are bounded and
injective position-wise. -/
theorem homes_perm_char {d : List (K × Nat)}
    (h : (d.map (fun p => p.2)).Perm (List.range d.length)) :
    (∀ j, j < d.length → (nth d j).2 < d.length) ∧
      (∀ j1 j2, j1 < d.length → j2 < d.length →
        (nth d j1).2 = (nth d j2).2 → j1 = j2) := by
  have hmlen : (d.map (fun p => p.2)).length = d.length :=
    List.length_map d _
  constructor
  · intro j hj
    have hm : (nth d j).2 ∈ d.map (fun p => p.2) := by
      rw [List.mem_map]
      refine ⟨nth d j, ?_, rfl⟩
      rw [nth_eq_getElem hj]
      exact List.getElem_mem hj
    rw [h.mem_iff, List.mem_range] at hm
    exact hm
  · intro j1 j2 h1 h2 he
    have hnd : (d.map (fun p => p.2)).Nodup :=
      (h.nodup_iff).mpr (List.nodup_range _)
    have hj1 : j1 < (d.map (fun p => p.2)).length := by
      rw [List.length_map]
      exact h1
    have hj2 : j2 < (d.map (fun p => p.2)).length := by
      rw [List.length_map]
      exact h2
    have hg1 : (d.map (fun p => p.2))[j1] = (nth d j1).2 := by
      rw [List.getElem_map, nth_eq_getElem h1]
    have hg2 : (d.map (fun p => p.2))[j2] = (nth d j2).2 := by
      rw [List.getElem_map, nth_eq_getElem h2]
    exact (List.Nodup.getElem_inj_iff hnd).mp (by rw [hg1, hg2, he])

/-- The in-place undecoration coincides with the naive buffer-indexed
reference whenever the home fields are a permutation of the positions. -/
theorem undecorate_eq_naive {a : List V} {d : List (K × Nat)}
    (hlen : a.length = d.length)
    (hperm : (d.map (fun p => p.2)).Perm (List.range d.length)) :
    undecorate a d = undecorateNaive a d := by
  obtain ⟨hbnd, hinj⟩ := homes_perm_char hperm
  obtain ⟨hul, hup⟩ := undecorate_spec hlen hbnd hinj
  apply ext_nth
  · rw [hul, undecorateNaive, List.length_map, hlen]
  · intro k hk
    rw [hul, hlen] at hk
    have hr : nth (undecorateNaive a d) k = nth a ((nth d k).2) := by
      rw [undecorateNaive,
        nth_eq_getElem (show k < (d.map (fun p => nth a p.2)).length by
          rw [List.length_map]; exact hk),
        List.getElem_map, ← nth_eq_getElem hk]
    rw [hup k hk, hr]

/-- Mapping each position of the range through `nth` rebuilds the list. -/
theorem range_map_nth (a : List V) :
    (List.range a.length).map (fun j => nth a j) = a := by
  apply List.ext_getElem
  · rw [List.length_map, List.length_range]
  · intro k hk1 hk2
    rw [List.getElem_map, List.getElem_range, nth_eq_getElem hk2]

/-- The lifted comparator on decorated pairs is a strict weak order
whenever the key comparator is. -/
theorem isSWO_pairComp {comp : K → K → Bool} (hswo : IsSWO comp) :
    IsSWO (pairComp (K := K) comp) where
  irrefl p := hswo.irrefl p.1
  trans p q r h1 h2 := hswo.trans p.1 q.1 r.1 h1 h2
  incomp_trans p q r h1 h2 h3 h4 :=
    hswo.incomp_trans p.1 q.1 r.1 h1 h2 h3 h4

/-- Full correctness of `rei_sort_by_key`: the result is a permutation of
the input whose key sequence is non-decreasing under `comp`. -/
theorem rei_sort_by_key_master {comp : K → K → Bool} (hswo : IsSWO comp)
    (key : V → K) (a : List V) :
    (rei_sort_by_key a key comp).Perm a ∧
      (rei_sort_by_key a key comp).length = a.length ∧
      ∀ j, j + 1 < a.length →
        comp (key (nth (rei_sort_by_key a key comp) (j + 1)))
          (key (nth (rei_sort_by_key a key comp) j)) = false := by
  have hswo2 : IsSWO (pairComp (K := K) comp) := isSWO_pairComp hswo
  have hd0l : (decorate key a).length = a.length := decorate_length key a
  have hDperm : (rei_sort (decorate key a) (pairComp comp) true).Perm
      (decorate key a) :=
    rei_sort_impl_perm hswo2 (decorate key a) true
  have hDlen : (rei_sort (decorate key a) (pairComp comp) true).length =
      a.length := by
    rw [hDperm.length_eq, hd0l]
  have hDsorted : SortedL (pairComp comp)
      (rei_sort (decorate key a) (pairComp comp) true) :=
    rei_sort_impl_sorted hswo2 (decorate key a) true
  have hhomes : ((rei_sort (decorate key a) (pairComp comp) true).map
      (fun p => p.2)).Perm
      (List.range (rei_sort (decorate key a) (pairComp comp) true).length) := by
    refine (hDperm.map _).trans ?_
    rw [decorate_homes, hDlen]
  obtain ⟨hbnd, hinj⟩ := homes_perm_char hhomes
  have hlen2 : a.length =
      (rei_sort (decorate key a) (pairComp comp) true).length := hDlen.symm
  obtain ⟨hul, hup⟩ := undecorate_spec hlen2 hbnd hinj
  have hkey : ∀ j, j < a.length →
      ∃ m, m < a.length ∧
        nth (rei_sort (decorate key a) (pairComp comp) true) j =
          (key (nth a m), m) := by
    intro j hj
    have hm : nth (rei_sort (decorate key a) (pairComp comp) true) j ∈
        decorate key a := by
      rw [← hDperm.mem_iff, nth_eq_getElem (by omega)]
      exact List.getElem_mem (by omega)
    exact mem_decorate hm
  refine ⟨?_, ?_, ?_⟩
  · show (undecorate a (rei_sort (decorate key a) (pairComp comp) true)).Perm a
    rw [undecorate_eq_naive hlen2 hhomes, undecorateNaive]
    refine (hDperm.map _).trans ?_
    have hcomp : (decorate key a).map (fun p => nth a p.2) =
        ((decorate key a).map (fun p => p.2)).map (fun j => nth a j) := by
      rw [List.map_map]
      rfl
    rw [hcomp, decorate_homes, range_map_nth]
  · show (undecorate a (rei_sort (decorate key a) (pairComp comp) true)).length
      = a.length
    exact hul
  · intro j hj
    show comp
      (key (nth (undecorate a (rei_sort (decorate key a) (pairComp comp) true))
        (j + 1)))
      (key (nth (undecorate a (rei_sort (decorate key a) (pairComp comp) true))
        j)) = false
    rw [hup (j + 1) (by omega), hup j (by omega)]
    obtain ⟨m1, hm1, he1⟩ := hkey j (by omega)
    obtain ⟨m2, hm2, he2⟩ := hkey (j + 1) (by omega)
    have hk1 : key (nth a
        ((nth (rei_sort (decorate key a) (pairComp comp) true) j).2)) =
        (nth (rei_sort (decorate key a) (pairComp comp) true) j).1 := by
      rw [he1]
    have hk2 : key (nth a
        ((nth (rei_sort (decorate key a) (pairComp comp) true) (j + 1)).2)) =
        (nth (rei_sort (decorate key a) (pairComp comp) true) (j + 1)).1 := by
      rw [he2]
    rw [hk1, hk2]
    exact sortedL_iff_nth.mp hDsorted j (by omega)

end ByKey

section IntroInv

variable {α : Type} [Inhabited α]

/-- Every frame the inner loop ever pushes covers more than one element
and, when the loop was entered with a non-negative budget, carries a
non-negative budget. -/
theorem innerLoop_pushed (comp : α → α → Bool) :
    ∀ (fuel : Nat) (a : List α) (lo hi : Nat) (depth : Int)
      (acc : List Frame),
      ∀ f ∈ (innerLoop comp fuel a lo hi depth acc).2.2.2,
        f ∈ acc ∨ (f.lo + 1 < f.hi ∧ (0 ≤ depth → 0 ≤ f.depth)) := by
  intro fuel
  induction fuel with
  | zero =>
      intro a lo hi depth acc f hf
      exact Or.inl hf
  | succ fuel ih =>
      intro a lo hi depth acc f hf
      rw [innerLoop] at hf
      by_cases hg : INSERTION_THRESHOLD < hi - lo
      · rw [if_pos hg] at hf
        by_cases hd : depth = 0
        · rw [if_pos hd] at hf
          exact Or.inl hf
        · rw [if_neg hd] at hf
          by_cases hb : (partitionSub comp a lo hi).2.1 - lo <
              hi - (partitionSub comp a lo hi).2.2
          · rw [if_pos hb] at hf
            by_cases hpush : 1 < (partitionSub comp a lo hi).2.1 - lo
            · rw [if_pos hpush] at hf
              rcases ih _ _ _ _ _ f hf with hin | hprop
              · rcases List.mem_cons.mp hin with rfl | hin
                · refine Or.inr ⟨?_, ?_⟩
                  · show lo + 1 < (partitionSub comp a lo hi).2.1
                    omega
                  · intro h0
                    show (0:Int) ≤ depth - 1
                    omega
                · exact Or.inl hin
              · exact Or.inr ⟨hprop.1, fun h0 => hprop.2 (by omega)⟩
            · rw [if_neg hpush] at hf
              rcases ih _ _ _ _ _ f hf with hin | hprop
              · exact Or.inl hin
              · exact Or.inr ⟨hprop.1, fun h0 => hprop.2 (by omega)⟩
          · rw [if_neg hb] at hf
            by_cases hpush : 1 < hi - (partitionSub comp a lo hi).2.2
            · rw [if_pos hpush] at hf
              rcases ih _ _ _ _ _ f hf with hin | hprop
              · rcases List.mem_cons.mp hin with rfl | hin
                · refine Or.inr ⟨?_, ?_⟩
                  · show (partitionSub comp a lo hi).2.2 + 1 < hi
                    omega
                  · intro h0
                    show (0:Int) ≤ depth - 1
                    omega
                · exact Or.inl hin
              · exact Or.inr ⟨hprop.1, fun h0 => hprop.2 (by omega)⟩
            · rw [if_neg hpush] at hf
              rcases ih _ _ _ _ _ f hf with hin | hprop
              · exact Or.inl hin
              · exact Or.inr ⟨hprop.1, fun h0 => hprop.2 (by omega)⟩
      · rw [if_neg hg] at hf
        exact Or.inl hf

/-- The (array, work-stack) states reachable during an execution of
`introsort_iterative` on `a0`: the initial single frame, and one
outer-loop step popping a frame, running the inner loop on it and
replacing it by the frames it pushed. -/
inductive IntroReach (comp : α → α → Bool) (a0 : List α) :
    List α → List Frame → Prop
  | init : IntroReach comp a0 a0
      [⟨0, a0.length, INTROSORT_DEPTH_FACTOR * (Nat.clog 2 a0.length : Int)⟩]
  | step (a : List α) (f : Frame) (rest : List Frame) (b : List α)
      (lo2 hi2 : Nat) (out : List Frame) :
      IntroReach comp a0 a (f :: rest) →
      innerLoop comp (f.hi - f.lo) a f.lo f.hi f.depth [] =
        (b, lo2, hi2, out) →
      IntroReach comp a0
        (if 1 < hi2 - lo2 then insertionSub comp b lo2 hi2 else b)
        (out ++ rest)

/-- Stack invariant of the iterative introsort: on every reachable state
each frame covers more than one element and has a non-negative budget. -/
theorem introReach_frames {comp : α → α → Bool} {a0 : List α}
    (hlen : 1 < a0.length) :
    ∀ {a : List α} {stack : List Frame}, IntroReach comp a0 a stack →
      ∀ f ∈ stack, f.lo + 1 < f.hi ∧ 0 ≤ f.depth := by
  intro a stack hr
  induction hr with
  | init =>
      intro f hf
      rw [List.mem_singleton] at hf
      subst hf
      constructor
      · show 0 + 1 < a0.length
        omega
      · show (0:Int) ≤ 2 * (Nat.clog 2 a0.length : Int)
        exact mul_nonneg (by norm_num) (Int.natCast_nonneg _)
  | step a f rest b lo2 hi2 out hr hres ih =>
      intro g hg
      rcases List.mem_append.mp hg with hg | hg
      · have hp := innerLoop_pushed comp (f.hi - f.lo) a f.lo f.hi f.depth
          [] g (by rw [hres]; exact hg)
        rcases hp with h | h
        · exact absurd h (List.not_mem_nil g)
        · exact ⟨h.1, h.2 (ih f (List.mem_cons_self f rest)).2⟩
      · exact ih g (List.mem_cons_of_mem f hg)

end IntroInv

section Claims

/-- Strict order on naturals used to instantiate the claims' witnesses. -/
def natLess (x y : Nat) : Bool := decide (x < y)

theorem isSWO_natLess : IsSWO natLess where
  irrefl a := by simp [natLess]
  trans a b c h1 h2 := by
    simp only [natLess, decide_eq_true_eq] at h1 h2 ⊢
    omega
  incomp_trans a b c h1 h2 h3 h4 := by
    simp only [natLess, decide_eq_false_iff_not] at h1 h2 h3 h4 ⊢
    omega

/-- C1: for every finite range, every strict weak order `less`, and either
value of `detect_sorted`, `rei_sort` (via `rei_sort_impl`) terminates with
the range holding a permutation of its initial contents in which for every
pair of positions `i < j`, `¬ less(a[j], a[i])`. -/
theorem claim_C1 {α : Type} [Inhabited α] {comp : α → α → Bool}
    (hswo : IsSWO comp) (a : List α) (detect : Bool) :
    (rei_sort a comp detect).Perm a ∧
      ∀ i j, i < j → j < (rei_sort a comp detect).length →
        comp (nth (rei_sort a comp detect) j)
          (nth (rei_sort a comp detect) i) = false := by
  refine ⟨rei_sort_impl_perm hswo a detect, ?_⟩
  intro i j hij hj
  exact pairwiseLe_nth (sortedL_pairwise hswo
    (rei_sort_impl_sorted hswo a detect)) hij hj

theorem claim_C1_witness :
    IsSWO natLess ∧ (rei_sort [3, 1, 2] natLess true).Perm [3, 1, 2] :=
  ⟨isSWO_natLess, (claim_C1 isSWO_natLess [3, 1, 2] true).1⟩

/-- C2: for every range, key projection and strict weak order on keys,
`rei_sort_by_key` terminates with the range holding a permutation of its
initial contents whose key sequence is non-decreasing:
`¬ comp(key(a[i+1]), key(a[i]))` for every adjacent pair. -/
theorem claim_C2 {V K : Type} [Inhabited V] [Inhabited K]
    {comp : K → K → Bool} (hswo : IsSWO comp) (key : V → K) (a : List V) :
    (rei_sort_by_key a key comp).Perm a ∧
      ∀ j, j + 1 < a.length →
        comp (key (nth (rei_sort_by_key a key comp) (j + 1)))
          (key (nth (rei_sort_by_key a key comp) j)) = false := by
  obtain ⟨h1, h2, h3⟩ := rei_sort_by_key_master hswo key a
  exact ⟨h1, h3⟩

theorem claim_C2_witness :
    IsSWO natLess ∧
      (rei_sort_by_key [5, 2, 9] (fun v => v + 1) natLess).Perm [5, 2, 9] :=
  ⟨isSWO_natLess, (claim_C2 isSWO_natLess (fun v => v + 1) [5, 2, 9]).1⟩

/-- C3: the scanner's `is_sorted` flag holds iff every adjacent pair
satisfies `¬ less(a[i+1], a[i])`, its `is_reverse` flag holds iff every
adjacent pair satisfies `¬ less(a[i], a[i+1])`, and for ranges of length
at most one both flags are true. -/
theorem claim_C3 {α : Type} [Inhabited α] (a : List α)
    (comp : α → α → Bool) :
    ((scan_sorted_and_reverse a comp).1 = true ↔
      ∀ j, j + 1 < a.length → comp (nth a (j + 1)) (nth a j) = false) ∧
      ((scan_sorted_and_reverse a comp).2.1 = true ↔
        ∀ j, j + 1 < a.length → comp (nth a j) (nth a (j + 1)) = false) ∧
      (a.length ≤ 1 → (scan_sorted_and_reverse a comp).1 = true ∧
        (scan_sorted_and_reverse a comp).2.1 = true) := by
  refine ⟨scan_sorted_iff a comp, scan_reverse_iff a comp, ?_⟩
  intro hle
  exact ⟨(scan_sorted_iff a comp).mpr (fun j hj => absurd hj (by omega)),
    (scan_reverse_iff a comp).mpr (fun j hj => absurd hj (by omega))⟩

/-- C4: on a non-empty range, `partition_3way` permutes the range and
returns boundaries `(lt, gt_end)` with `lt ≤ gt_end ≤ size` such that
elements before `lt` are less than the pivot, elements of `[lt, gt_end)`
are equivalent to the pivot, and elements from `gt_end` on are greater,
the pivot being the median-of-three of the first, middle and last
elements. -/
theorem claim_C4 {α : Type} [Inhabited α] {comp : α → α → Bool}
    (hswo : IsSWO comp) {a b : List α} {lt g : Nat} (hne : a.length ≠ 0)
    (hres : partition_3way a comp = (b, lt, g)) :
    b.Perm a ∧ lt ≤ g ∧ g ≤ a.length ∧
      (∀ k, k < lt →
        comp (nth b k)
          (nth a (median_of_three a 0 (a.length / 2) (a.length - 1) comp)) =
          true) ∧
      (∀ k, lt ≤ k → k < g →
        comp (nth b k)
          (nth a (median_of_three a 0 (a.length / 2) (a.length - 1) comp)) =
          false ∧
        comp (nth a (median_of_three a 0 (a.length / 2) (a.length - 1) comp))
          (nth b k) = false) ∧
      (∀ k, g ≤ k → k < a.length →
        comp (nth a (median_of_three a 0 (a.length / 2) (a.length - 1) comp))
          (nth b k) = true) := by
  obtain ⟨h1, h2, h3, h4, h5, h6, h7⟩ := partition_3way_spec hswo hne hres
  exact ⟨h1, by omega, h4, h5, h6, h7⟩

theorem claim_C4_witness :
    IsSWO natLess ∧ ([2, 1, 3] : List Nat).length ≠ 0 ∧
      (partition_3way [2, 1, 3] natLess).1.Perm [2, 1, 3] := by
  refine ⟨isSWO_natLess, by decide, ?_⟩
  rcases h : partition_3way [2, 1, 3] natLess with ⟨b, bd⟩
  rcases bd with ⟨lt, g⟩
  have hp := (claim_C4 isSWO_natLess (by decide) h).1
  exact hp

/-- C5: whenever the home fields of the (sorted) decorated array are a
permutation of the positions, the in-place cycle-following undecoration
produces exactly the naive reference result (a fresh buffer indexed by
home): final `a[i]` is original `a[home[i]]` for every `i`. -/
theorem claim_C5 {V K : Type} [Inhabited V] [Inhabited K] {a : List V}
    {d : List (K × Nat)} (hlen : a.length = d.length)
    (hperm : (d.map (fun p => p.2)).Perm (List.range d.length)) :
    undecorate a d = undecorateNaive a d ∧
      ∀ i, i < d.length → nth (undecorate a d) i = nth a ((nth d i).2) := by
  obtain ⟨hbnd, hinj⟩ := homes_perm_char hperm
  exact ⟨undecorate_eq_naive hlen hperm, (undecorate_spec hlen hbnd hinj).2⟩

theorem claim_C5_witness :
    ([10, 20, 30] : List Nat).length =
        ([(0, 2), (0, 1), (0, 0)] : List (Nat × Nat)).length ∧
      undecorate [10, 20, 30] [(0, 2), (0, 1), (0, 0)] =
        undecorateNaive ([10, 20, 30] : List Nat)
          ([(0, 2), (0, 1), (0, 0)] : List (Nat × Nat)) :=
  ⟨rfl, (claim_C5 (a := ([10, 20, 30] : List Nat))
    (d := ([(0, 2), (0, 1), (0, 0)] : List (Nat × Nat))) rfl (by decide)).1⟩

/-- C6: after `heapify`, a non-empty range satisfies the binary max-heap
property: for every parent `p` and in-bounds child `c ∈ {2p+1, 2p+2}`,
`¬ less(a[p], a[c])`. -/
theorem claim_C6 {α : Type} [Inhabited α] {comp : α → α → Bool}
    (hswo : IsSWO comp) (a : List α) (hne : a.length ≠ 0) :
    ∀ p c, c < a.length → (c = 2 * p + 1 ∨ c = 2 * p + 2) →
      comp (nth (heapify comp a) p) (nth (heapify comp a) c) = false :=
  (heapify_spec hswo a).2.2

theorem claim_C6_witness :
    IsSWO natLess ∧ ([1, 3, 2] : List Nat).length ≠ 0 ∧
      ∀ p c, c < ([1, 3, 2] : List Nat).length →
        (c = 2 * p + 1 ∨ c = 2 * p + 2) →
        natLess (nth (heapify natLess [1, 3, 2]) p)
          (nth (heapify natLess [1, 3, 2]) c) = false :=
  ⟨isSWO_natLess, by decide, claim_C6 isSWO_natLess [1, 3, 2] (by decide)⟩

/-- C7: along every execution of `introsort_iterative` entered with a
range longer than `INSERTION_THRESHOLD`, every frame on the explicit work
stack covers more than one element and carries a non-negative budget; the
initial frame satisfies this and every push preserves it (the reachable
states are described by `IntroReach`). -/
theorem claim_C7 {α : Type} [Inhabited α] {comp : α → α → Bool}
    {a0 : List α} (hlen : INSERTION_THRESHOLD < a0.length) {a : List α}
    {stack : List Frame} (hr : IntroReach comp a0 a stack) :
    ∀ f ∈ stack, 1 < f.hi - f.lo ∧ 0 ≤ f.depth := by
  intro f hf
  have h20 : INSERTION_THRESHOLD = 20 := rfl
  have h := introReach_frames (by omega) hr f hf
  exact ⟨by omega, h.2⟩

theorem claim_C7_witness :
    INSERTION_THRESHOLD < (List.range 21).length ∧
      ∀ f ∈ [(⟨0, (List.range 21).length,
        INTROSORT_DEPTH_FACTOR * (Nat.clog 2 (List.range 21).length : Int)⟩ :
          Frame)], 1 < f.hi - f.lo ∧ 0 ≤ f.depth :=
  ⟨by decide, claim_C7 (by decide) (@IntroReach.init Nat _ natLess (List.range 21))⟩

/-- C8: sorting an already sorted range (every adjacent pair satisfies
`¬ less(a[i+1], a[i])`) with `rei_sort` (detection enabled, its default)
returns the range unchanged. -/
theorem claim_C8 {α : Type} [Inhabited α] {comp : α → α → Bool}
    (a : List α)
    (hs : ∀ j, j + 1 < a.length → comp (nth a (j + 1)) (nth a j) = false) :
    rei_sort a comp = a := by
  show rei_sort_impl a comp true = a
  rw [rei_sort_impl_eq]
  by_cases h1 : a.length ≤ 1
  · rw [if_pos h1]
  · rw [if_neg h1, if_pos rfl, if_pos ((scan_sorted_iff a comp).mpr hs)]

theorem claim_C8_witness :
    (∀ j, j + 1 < ([1, 2, 3] : List Nat).length →
      natLess (nth [1, 2, 3] (j + 1)) (nth [1, 2, 3] j) = false) ∧
      rei_sort [1, 2, 3] natLess = [1, 2, 3] := by
  have hs : ∀ j, j + 1 < ([1, 2, 3] : List Nat).length →
      natLess (nth [1, 2, 3] (j + 1)) (nth [1, 2, 3] j) = false := by
    intro j hj
    have hj2 : j < 2 := by simp at hj; omega
    interval_cases j <;> decide
  exact ⟨hs, claim_C8 [1, 2, 3] hs⟩

/-- C9: over a whole `rei_sort_by_key` call the key projection is applied
exactly once per element of the range, `n` calls in total: the call log of
the model (`keyCallArgs`, recorded by the decoration pass, the only phase
that invokes the key) is the input itself. -/
theorem claim_C9 {V K : Type} [Inhabited V] [Inhabited K] (key : V → K)
    (a : List V) :
    keyCallArgs key a = a ∧ (keyCallArgs key a).length = a.length := by
  have h : keyCallArgs key a = a := by
    rw [keyCallArgs, decorateLoop_args]
  exact ⟨h, by rw [h]⟩

/-- C10: the scanner never writes: `scan_sorted_and_reverse` returns the
range exactly as given. -/
theorem claim_C10 {α : Type} [Inhabited α] (a : List α)
    (comp : α → α → Bool) :
    (scan_sorted_and_reverse a comp).2.2 = a :=
  scan_range_eq a comp

end Claims

end ReiSort
